import Mathlib

/-!
Verification of the best-fit range allocator in
`src/backend/auxil/range_alloc.rs`.

The Rust code manages a list of disjoint free half-open ranges over a
generic ordinal type `T`.  We instantiate `T` with `Int` (any totally
ordered type with addition and subtraction; the code performs no
overflow-sensitive arithmetic).  Rust's `Range<T>` has fields `start`
and `end`; since `end` is a Lean keyword we call the second field
`stop`.

Mutation is modelled by explicit state passing: each operation takes the
allocator and returns the new allocator together with its result.  The
two `assert!` statements at the top of `free_range` model panics: the
embedded `free_range` returns `none` exactly when an assertion fires,
and `some (result, newState)` for a normal return.
-/

namespace RangeAlloc

/-- Rust's `Range<T>` at `T = Int`: the half-open interval `[start, stop)`.
(`stop` is Rust's `end` field.) -/
structure Range where
  start : Int
  stop : Int
  deriving DecidableEq

/-- The allocator struct: the fixed overall range and the free list
(`free_ranges` is sorted by ascending start in all intended states). -/
structure RangeAllocator where
  initial_range : Range
  free_ranges : List Range
  deriving DecidableEq

/-- Length `end - start` of a half-open range. -/
def Range.size (r : Range) : Int := r.stop - r.start

namespace RangeAllocator

/-- Embeds `RangeAllocator::new`. -/
def new (range : Range) : RangeAllocator :=
  { initial_range := range, free_ranges := [range] }

/-- The `for (index, range)` loop of `allocate_range`, lines 32-54:
scan the free list keeping the best (smallest qualifying) candidate,
breaking early on a perfect fit.  `index` is the position of the head of
the remaining list; `best` is the best candidate so far. -/
def bestFitLoop (length : Int) : List Range → Nat → Option (Nat × Range) → Option (Nat × Range)
  | [], _, best => best
  | r :: rest, index, best =>
    if r.stop - r.start < length then
      bestFitLoop length rest (index + 1) best
    else if r.stop - r.start = length then
      -- Found a perfect fit, so stop looking.
      some (index, r)
    else
      match best with
      | some (bi, br) =>
        if r.stop - r.start < br.stop - br.start then
          bestFitLoop length rest (index + 1) (some (index, r))
        else
          bestFitLoop length rest (index + 1) (some (bi, br))
      | none => bestFitLoop length rest (index + 1) (some (index, r))

/-- Embeds `RangeAllocator::allocate_range`, lines 30-63.  Returns the allocated
range (if any) and the updated allocator. -/
def allocate_range (a : RangeAllocator) (length : Int) : Option Range × RangeAllocator :=
  match bestFitLoop length a.free_ranges 0 none with
  | some (index, range) =>
    if range.stop - range.start = length then
      (some ⟨range.start, range.start + length⟩,
        { a with free_ranges := a.free_ranges.eraseIdx index })
    else
      (some ⟨range.start, range.start + length⟩,
        { a with free_ranges := a.free_ranges.set index ⟨range.start + length, range.stop⟩ })
  | none => (none, a)

/-- One iteration of the placement loop of `free_range` (lines 89-125) at
position `i ≥ 1`: `p` is `free_ranges[i-1]`, the list argument is
`free_ranges[i..]`.  The returned list replaces `free_ranges[i-1..]`. -/
def free_scan (rng : Range) (p : Range) : List Range → Option (List Range)
  | [] => none
  | c :: t =>
    if rng.stop = c.start then
      -- Input is immediately to the left of `c`; extend `c` down, then
      -- merge with the left neighbour `p` if now adjacent.
      if p.stop = rng.start then some (⟨p.start, c.stop⟩ :: t)
      else some (p :: ⟨rng.start, c.stop⟩ :: t)
    else if rng.start = c.stop then
      -- Input is immediately to the right of `c`; extend `c` up, then
      -- merge with the right neighbour if now adjacent.
      match t with
      | d :: t2 =>
        if d.start = rng.stop then some (p :: ⟨c.start, d.stop⟩ :: t2)
        else some (p :: ⟨c.start, rng.stop⟩ :: d :: t2)
      | [] => some (p :: [⟨c.start, rng.stop⟩])
    else
      match t with
      | d :: t2 =>
        -- Input lies strictly between `c` and `d`: insert it there.
        if rng.start > c.stop ∧ rng.stop < d.start then some (p :: c :: rng :: d :: t2)
        else Option.map (fun l => p :: l) (free_scan rng c (d :: t2))
      | [] => none

/-- The placement loop of `free_range` starting at position `i = 0`
(where no left neighbour exists, so the left-merge of the first branch
cannot apply). -/
def free_first (rng : Range) : List Range → Option (List Range)
  | [] => none
  | c :: t =>
    if rng.stop = c.start then some (⟨rng.start, c.stop⟩ :: t)
    else if rng.start = c.stop then
      match t with
      | d :: t2 =>
        if d.start = rng.stop then some (⟨c.start, d.stop⟩ :: t2)
        else some (⟨c.start, rng.stop⟩ :: d :: t2)
      | [] => some [⟨c.start, rng.stop⟩]
    else
      match t with
      | d :: t2 =>
        if rng.start > c.stop ∧ rng.stop < d.start then some (c :: rng :: d :: t2)
        else free_scan rng c (d :: t2)
      | [] => none

/-- The body of `free_range` after the assertions (lines 68-126): compute
the new free list, or `none` when no placement applies (the `Err` path,
which performs no mutation: every mutating branch of the Rust loop
returns `Ok` immediately). -/
def free_list_insert (rng : Range) : List Range → Option (List Range)
  | [] => some [rng]
  | c :: t =>
    -- Input is before the first free range and not adjacent to it.
    if c.start > rng.stop then some (rng :: c :: t)
    -- Input is after the last free range and not adjacent to it.
    else if (List.getLastD t c).stop < rng.start then some ((c :: t) ++ [rng])
    else free_first rng (c :: t)

/-- Embeds `RangeAllocator::free_range`, lines 65-127.  `none` models a panic of
one of the two `assert!`s; otherwise the result is `some (res, a')` with
`res` the returned `Result<(), ()>` and `a'` the updated allocator. -/
def free_range (a : RangeAllocator) (rng : Range) : Option (Except Unit Unit × RangeAllocator) :=
  if a.initial_range.start ≤ rng.start ∧ rng.stop ≤ a.initial_range.stop then
    if rng.start < rng.stop then
      match free_list_insert rng a.free_ranges with
      | some fr => some (Except.ok (), { a with free_ranges := fr })
      | none => some (Except.error (), a)
    else none
  else none

/-- Embeds `RangeAllocator::reset`, lines 129-132. -/
def reset (a : RangeAllocator) : RangeAllocator :=
  { a with free_ranges := [a.initial_range] }

end RangeAllocator

open RangeAllocator

/-- States reachable from `new init` by `allocate_range`/`free_range`
calls in which every freed range is one previously returned by a
successful allocation and not freed since; `out` collects the
currently-outstanding allocated ranges. -/
inductive Reach (init : Range) : RangeAllocator → List Range → Prop
  | base : Reach init (RangeAllocator.new init) []
  | alloc_ok {a : RangeAllocator} {out : List Range} {len : Int} {r : Range}
      {a' : RangeAllocator} : Reach init a out →
      a.allocate_range len = (some r, a') → Reach init a' (r :: out)
  | alloc_fail {a : RangeAllocator} {out : List Range} {len : Int}
      {a' : RangeAllocator} : Reach init a out →
      a.allocate_range len = (none, a') → Reach init a' out
  | free_ok {a : RangeAllocator} {out : List Range} {r : Range}
      {a' : RangeAllocator} : Reach init a out → r ∈ out →
      a.free_range r = some (Except.ok (), a') → Reach init a' (out.erase r)
  | free_err {a : RangeAllocator} {out : List Range} {r : Range}
      {a' : RangeAllocator} : Reach init a out → r ∈ out →
      a.free_range r = some (Except.error (), a') → Reach init a' out

/-! ### Sanity checks: the Rust unit tests, replayed on the embedding -/

/-- Rust test `test_basic_allocation`. -/
theorem sanity_basic_allocation :
    let a0 := RangeAllocator.new ⟨0, 10⟩
    let s1 := a0.allocate_range 4
    s1.1 = some ⟨0, 4⟩ ∧
    ∃ a2, s1.2.free_range ⟨0, 4⟩ = some (Except.ok (), a2) ∧ a2.free_ranges = [⟨0, 10⟩] := by
  refine ⟨rfl, ?_⟩
  exact ⟨_, rfl, rfl⟩

/-- Rust test `test_out_of_space`. -/
theorem sanity_out_of_space :
    let a0 := RangeAllocator.new ⟨0, 10⟩
    let s1 := a0.allocate_range 10
    s1.1 = some ⟨0, 10⟩ ∧ (s1.2.allocate_range 4).1 = none ∧
    ∃ r a2, s1.2.free_range ⟨0, 10⟩ = some (Except.ok r, a2) := by
  exact ⟨rfl, rfl, (), _, rfl⟩

/-- Rust test `test_dont_use_block_that_is_too_small`. -/
theorem sanity_too_small :
    let a0 := RangeAllocator.new ⟨0, 10⟩
    let s1 := a0.allocate_range 3
    let s2 := s1.2.allocate_range 3
    let s3 := s2.2.allocate_range 3
    s1.1 = some ⟨0, 3⟩ ∧ s2.1 = some ⟨3, 6⟩ ∧ s3.1 = some ⟨6, 9⟩ ∧
    ∃ a4, s3.2.free_range ⟨3, 6⟩ = some (Except.ok (), a4) ∧
      a4.free_ranges = [⟨3, 6⟩, ⟨9, 10⟩] ∧
      (a4.allocate_range 3).1 = some ⟨3, 6⟩ := by
  exact ⟨rfl, rfl, rfl, _, rfl, rfl, rfl⟩

/-- Rust test `test_ignore_block_if_another_fits_better` (the final
allocation: with free list `[3..6, 9..10]`, a request of length 1 takes
the perfect fit `9..10`). -/
theorem sanity_perfect_fit :
    let a := RangeAllocator.mk ⟨0, 10⟩ [⟨3, 6⟩, ⟨9, 10⟩]
    (a.allocate_range 1).1 = some ⟨9, 10⟩ ∧
    (a.allocate_range 1).2.free_ranges = [⟨3, 6⟩] := by
  exact ⟨rfl, rfl⟩

/-- A slice of Rust test `test_free_blocks_in_middle`: freeing blocks in
the middle keeps the list sorted and coalesced. -/
theorem sanity_free_middle :
    let a := RangeAllocator.mk ⟨0, 100⟩ []
    ∃ a1 a2 a3, a.free_range ⟨10, 20⟩ = some (Except.ok (), a1) ∧
      a1.free_range ⟨30, 40⟩ = some (Except.ok (), a2) ∧
      a2.free_range ⟨50, 60⟩ = some (Except.ok (), a3) ∧
      a3.free_ranges = [⟨10, 20⟩, ⟨30, 40⟩, ⟨50, 60⟩] := by
  exact ⟨_, _, _, rfl, rfl, rfl, rfl⟩

/-! ### The free-list invariants -/

/-- Range `a` lies strictly left of `b` with a nonempty gap: this single
relation between consecutive entries encodes sortedness, disjointness
and non-adjacency of a list of nonempty ranges. -/
def ltR (a b : Range) : Prop := a.stop < b.start

instance : DecidableRel ltR := fun a b => inferInstanceAs (Decidable (a.stop < b.start))

/-- Well-formed free list: consecutive entries strictly separated, and
every entry nonempty. -/
def FreeListWf (fr : List Range) : Prop :=
  List.Chain' ltR fr ∧ ∀ r ∈ fr, r.start < r.stop

/-- A `Decidable` instance for `Chain'` that evaluates by `decide`
(used for concrete witnesses). -/
instance decidableChainR (R : Range → Range → Prop) [DecidableRel R] :
    (l : List Range) → Decidable (List.Chain' R l)
  | [] => isTrue List.chain'_nil
  | [a] => isTrue (List.chain'_singleton a)
  | a :: b :: t =>
    have : Decidable (List.Chain' R (b :: t)) := decidableChainR R (b :: t)
    decidable_of_iff (R a b ∧ List.Chain' R (b :: t)) List.chain'_cons.symm

instance decidablePairwiseR (R : Range → Range → Prop) [DecidableRel R] :
    (l : List Range) → Decidable (l.Pairwise R)
  | [] => isTrue List.Pairwise.nil
  | a :: t =>
    have : Decidable (t.Pairwise R) := decidablePairwiseR R t
    decidable_of_iff ((∀ b ∈ t, R a b) ∧ t.Pairwise R) List.pairwise_cons.symm

instance (fr : List Range) : Decidable (FreeListWf fr) :=
  inferInstanceAs (Decidable (_ ∧ _))

/-- Every free entry lies within the initial range. -/
def InBounds (init : Range) (fr : List Range) : Prop :=
  ∀ r ∈ fr, init.start ≤ r.start ∧ r.stop ≤ init.stop

instance (init : Range) (fr : List Range) : Decidable (InBounds init fr) :=
  inferInstanceAs (Decidable (∀ r ∈ fr, _ ∧ _))

/-- The full allocator invariant. -/
def Wf (a : RangeAllocator) : Prop :=
  FreeListWf a.free_ranges ∧ InBounds a.initial_range a.free_ranges

instance (a : RangeAllocator) : Decidable (Wf a) :=
  inferInstanceAs (Decidable (_ ∧ _))

/-- Two half-open ranges share at least one point. -/
def overlaps (a b : Range) : Prop := a.start < b.stop ∧ b.start < a.stop

instance : DecidableRel overlaps := fun a b => inferInstanceAs (Decidable (_ ∧ _))

theorem FreeListWf.tail {c : Range} {t : List Range} (h : FreeListWf (c :: t)) :
    FreeListWf t :=
  ⟨(List.chain'_cons'.mp h.1).2, fun r hr => h.2 r (List.mem_cons_of_mem c hr)⟩

theorem FreeListWf.head_lt_all {c : Range} {t : List Range} (h : FreeListWf (c :: t)) :
    ∀ x ∈ t, c.stop < x.start := by
  induction t generalizing c with
  | nil => intro x hx; cases hx
  | cons d t2 ih =>
    intro x hx
    have hcd : c.stop < d.start := (List.chain'_cons.mp h.1).1
    rcases List.mem_cons.mp hx with rfl | hx2
    · exact hcd
    · have hd : d.start < d.stop := h.2 d (by simp)
      exact lt_trans (lt_trans hcd hd) (ih h.tail x hx2)

/-- A well-formed free list is pairwise strictly separated, hence
pairwise disjoint, sorted by ascending start, and nowhere adjacent. -/
theorem FreeListWf.pairwise {fr : List Range} (h : FreeListWf fr) :
    fr.Pairwise ltR := by
  induction fr with
  | nil => exact List.Pairwise.nil
  | cons c t ih => exact List.Pairwise.cons h.head_lt_all (ih h.tail)

/-! ### Characterisation of `bestFitLoop` -/

theorem bestFitLoop_cons_skip {len : Int} {r : Range} {rest : List Range} {k : Nat}
    {best : Option (Nat × Range)} (h1 : r.stop - r.start < len) :
    bestFitLoop len (r :: rest) k best = bestFitLoop len rest (k + 1) best := by
  simp [bestFitLoop, h1]

theorem bestFitLoop_cons_exact {len : Int} {r : Range} {rest : List Range} {k : Nat}
    {best : Option (Nat × Range)} (h1 : ¬r.stop - r.start < len)
    (h2 : r.stop - r.start = len) :
    bestFitLoop len (r :: rest) k best = some (k, r) := by
  simp [bestFitLoop, h1, h2]

theorem bestFitLoop_cons_first {len : Int} {r : Range} {rest : List Range} {k : Nat}
    (h1 : ¬r.stop - r.start < len) (h2 : ¬r.stop - r.start = len) :
    bestFitLoop len (r :: rest) k none = bestFitLoop len rest (k + 1) (some (k, r)) := by
  simp [bestFitLoop, h1, h2]

theorem bestFitLoop_cons_better {len : Int} {r br : Range} {rest : List Range} {k bi : Nat}
    (h1 : ¬r.stop - r.start < len) (h2 : ¬r.stop - r.start = len)
    (h3 : r.stop - r.start < br.stop - br.start) :
    bestFitLoop len (r :: rest) k (some (bi, br)) =
      bestFitLoop len rest (k + 1) (some (k, r)) := by
  simp [bestFitLoop, h1, h2, h3]

theorem bestFitLoop_cons_keep {len : Int} {r br : Range} {rest : List Range} {k bi : Nat}
    (h1 : ¬r.stop - r.start < len) (h2 : ¬r.stop - r.start = len)
    (h3 : ¬r.stop - r.start < br.stop - br.start) :
    bestFitLoop len (r :: rest) k (some (bi, br)) =
      bestFitLoop len rest (k + 1) (some (bi, br)) := by
  simp [bestFitLoop, h1, h2, h3]

theorem bestFitLoop_eq_none {len : Int} :
    ∀ (l : List Range) (k : Nat) (best : Option (Nat × Range)),
      bestFitLoop len l k best = none ↔ best = none ∧ ∀ r ∈ l, r.stop - r.start < len := by
  intro l
  induction l with
  | nil => intro k best; simp [bestFitLoop]
  | cons r rest ih =>
    intro k best
    by_cases h1 : r.stop - r.start < len
    · rw [bestFitLoop_cons_skip h1, ih]
      constructor
      · rintro ⟨hb, hall⟩
        exact ⟨hb, fun x hx => (List.mem_cons.mp hx).elim (fun he => he ▸ h1) (hall x)⟩
      · rintro ⟨hb, hall⟩
        exact ⟨hb, fun x hx => hall x (List.mem_cons_of_mem r hx)⟩
    · by_cases h2 : r.stop - r.start = len
      · rw [bestFitLoop_cons_exact h1 h2]
        constructor
        · intro h; cases h
        · rintro ⟨-, hall⟩
          exact absurd (hall r (by simp)) (by omega)
      · rcases best with - | ⟨bi, br⟩
        · rw [bestFitLoop_cons_first h1 h2, ih]
          constructor
          · rintro ⟨h, -⟩; cases h
          · rintro ⟨-, hall⟩
            exact absurd (hall r (by simp)) (by omega)
        · by_cases h3 : r.stop - r.start < br.stop - br.start
          · rw [bestFitLoop_cons_better h1 h2 h3, ih]
            constructor
            · rintro ⟨h, -⟩; cases h
            · rintro ⟨h, -⟩; cases h
          · rw [bestFitLoop_cons_keep h1 h2 h3, ih]
            constructor
            · rintro ⟨h, -⟩; cases h
            · rintro ⟨h, -⟩; cases h

/-- The selected entry: `fr = pre ++ sel :: post`, `sel` qualifies, and
`sel` is the first entry of minimal qualifying size (strictly smaller
than every qualifying entry before it, no larger than every qualifying
entry after it). -/
def SelSpec (len : Int) (fr : List Range) (i : Nat) (sel : Range) : Prop :=
  ∃ pre post, fr = pre ++ sel :: post ∧ i = pre.length ∧ len ≤ sel.size ∧
    (∀ x ∈ pre, len ≤ x.size → sel.size < x.size) ∧
    (∀ x ∈ post, len ≤ x.size → sel.size ≤ x.size)

/-- Accumulator invariant of `bestFitLoop` after scanning `pre`. -/
def accInv (len : Int) (pre : List Range) : Option (Nat × Range) → Prop
  | none => ∀ x ∈ pre, x.size < len
  | some (bi, br) =>
    ∃ p1 p2, pre = p1 ++ br :: p2 ∧ bi = p1.length ∧ len < br.size ∧
      (∀ x ∈ p1, len ≤ x.size → br.size < x.size) ∧
      (∀ x ∈ p2, len ≤ x.size → br.size ≤ x.size)

theorem bestFitLoop_some_spec {len : Int} :
    ∀ (suf pre : List Range) (best : Option (Nat × Range)) (i : Nat) (sel : Range),
      accInv len pre best →
      bestFitLoop len suf pre.length best = some (i, sel) →
      SelSpec len (pre ++ suf) i sel := by
  intro suf
  induction suf with
  | nil =>
    intro pre best i sel hacc h
    simp only [bestFitLoop] at h
    subst h
    obtain ⟨p1, p2, hpre, hbi, hlt, hp1, hp2⟩ := hacc
    exact ⟨p1, p2, by simpa using hpre, hbi, le_of_lt hlt, hp1, hp2⟩
  | cons r rest ih =>
    intro pre best i sel hacc h
    have hlen1 : pre.length + 1 = (pre ++ [r]).length := by simp
    have hassoc : (pre ++ [r]) ++ rest = pre ++ r :: rest := by simp
    by_cases h1 : r.stop - r.start < len
    · rw [bestFitLoop_cons_skip h1, hlen1] at h
      have hacc' : accInv len (pre ++ [r]) best := by
        rcases best with - | ⟨bi, br⟩
        · intro x hx
          rcases List.mem_append.mp hx with hx | hx
          · exact hacc x hx
          · simp only [List.mem_singleton] at hx
            subst hx; exact h1
        · obtain ⟨p1, p2, hpre, hbi, hlt, hp1, hp2⟩ := hacc
          refine ⟨p1, p2 ++ [r], by simp [hpre], hbi, hlt, hp1, ?_⟩
          intro x hx hq
          rcases List.mem_append.mp hx with hx | hx
          · exact hp2 x hx hq
          · simp only [List.mem_singleton] at hx
            subst hx
            exact absurd hq (by simp only [Range.size]; omega)
      have := ih (pre ++ [r]) best i sel hacc' h
      rwa [hassoc] at this
    · by_cases h2 : r.stop - r.start = len
      · rw [bestFitLoop_cons_exact h1 h2] at h
        obtain ⟨rfl, rfl⟩ : pre.length = i ∧ r = sel := by
          constructor <;> { cases h; rfl }
        refine ⟨pre, rest, rfl, rfl, le_of_eq (by simp [Range.size, h2]), ?_, ?_⟩
        · intro x hx hq
          rcases best with - | ⟨bi, br⟩
          · exact absurd hq (not_le.mpr (hacc x hx))
          · obtain ⟨p1, p2, hpre, hbi, hlt, hp1, hp2⟩ := hacc
            have hsz : r.size = len := by simp [Range.size, h2]
            subst hpre
            rcases List.mem_append.mp hx with hx | hx
            · exact lt_trans (by omega) (hp1 x hx hq)
            · rcases List.mem_cons.mp hx with rfl | hx
              · omega
              · exact lt_of_lt_of_le (by omega) (hp2 x hx hq)
        · intro x hx hq
          simp only [Range.size] at hq ⊢
          omega
      · have hgt : len < r.size := by simp only [Range.size]; omega
        rcases best with - | ⟨bi, br⟩
        · rw [bestFitLoop_cons_first h1 h2, hlen1] at h
          have hacc' : accInv len (pre ++ [r]) (some (pre.length, r)) :=
            ⟨pre, [], by simp, rfl, hgt, fun x hx hq => absurd hq (not_le.mpr (hacc x hx)),
              by simp⟩
          have := ih (pre ++ [r]) _ i sel hacc' h
          rwa [hassoc] at this
        · obtain ⟨p1, p2, hpre, hbi, hlt, hp1, hp2⟩ := hacc
          by_cases h3 : r.stop - r.start < br.stop - br.start
          · rw [bestFitLoop_cons_better h1 h2 h3, hlen1] at h
            have hacc' : accInv len (pre ++ [r]) (some (pre.length, r)) := by
              refine ⟨pre, [], by simp, rfl, hgt, ?_, by simp⟩
              intro x hx hq
              have h3' : r.size < br.size := by simp only [Range.size]; omega
              subst hpre
              rcases List.mem_append.mp hx with hx | hx
              · exact lt_trans h3' (hp1 x hx hq)
              · rcases List.mem_cons.mp hx with rfl | hx
                · exact h3'
                · exact lt_of_lt_of_le h3' (hp2 x hx hq)
            have := ih (pre ++ [r]) _ i sel hacc' h
            rwa [hassoc] at this
          · rw [bestFitLoop_cons_keep h1 h2 h3, hlen1] at h
            have hacc' : accInv len (pre ++ [r]) (some (bi, br)) := by
              refine ⟨p1, p2 ++ [r], by simp [hpre], hbi, hlt, hp1, ?_⟩
              intro x hx hq
              rcases List.mem_append.mp hx with hx | hx
              · exact hp2 x hx hq
              · simp only [List.mem_singleton] at hx
                subst hx
                simp only [Range.size]; omega
            have := ih (pre ++ [r]) _ i sel hacc' h
            rwa [hassoc] at this

theorem eraseIdx_append_length (pre : List Range) (sel : Range) (post : List Range) :
    (pre ++ sel :: post).eraseIdx pre.length = pre ++ post := by
  induction pre with
  | nil => rfl
  | cons c t ih => simpa [List.eraseIdx] using ih

theorem set_append_length (pre : List Range) (sel x : Range) (post : List Range) :
    (pre ++ sel :: post).set pre.length x = pre ++ x :: post := by
  induction pre with
  | nil => rfl
  | cons c t ih => simpa [List.set] using ih

/-- Full characterisation of a successful `allocate_range`. -/
theorem allocate_range_some_spec {a : RangeAllocator} {len : Int} {r : Range}
    {a' : RangeAllocator} (h : a.allocate_range len = (some r, a')) :
    ∃ pre sel post, a.free_ranges = pre ++ sel :: post ∧
      len ≤ sel.size ∧
      (∀ x ∈ pre, len ≤ x.size → sel.size < x.size) ∧
      (∀ x ∈ post, len ≤ x.size → sel.size ≤ x.size) ∧
      r = ⟨sel.start, sel.start + len⟩ ∧
      a'.initial_range = a.initial_range ∧
      a'.free_ranges =
        pre ++ (if sel.size = len then post else ⟨sel.start + len, sel.stop⟩ :: post) := by
  unfold RangeAllocator.allocate_range at h
  rcases hb : bestFitLoop len a.free_ranges 0 none with - | ⟨i, sel⟩
  · rw [hb] at h; cases h
  · rw [hb] at h
    have hspec : SelSpec len a.free_ranges i sel := by
      have := bestFitLoop_some_spec a.free_ranges ([] : List Range) none i sel
        (fun x hx => absurd hx (List.not_mem_nil x)) hb
      simpa using this
    obtain ⟨pre, post, hfr, hi, hq, hpre, hpost⟩ := hspec
    dsimp only at h
    by_cases hexact : sel.stop - sel.start = len
    · rw [if_pos hexact] at h
      simp only [Prod.mk.injEq] at h
      obtain ⟨h1, h2⟩ := h
      obtain rfl := Option.some.inj h1
      subst h2
      refine ⟨pre, sel, post, hfr, hq, hpre, hpost, rfl, rfl, ?_⟩
      have hsz : sel.size = len := hexact
      rw [if_pos hsz]
      simp only [hfr, hi]
      exact eraseIdx_append_length pre sel post
    · rw [if_neg hexact] at h
      simp only [Prod.mk.injEq] at h
      obtain ⟨h1, h2⟩ := h
      obtain rfl := Option.some.inj h1
      subst h2
      refine ⟨pre, sel, post, hfr, hq, hpre, hpost, rfl, rfl, ?_⟩
      have hsz : ¬sel.size = len := hexact
      rw [if_neg hsz]
      simp only [hfr, hi]
      exact set_append_length pre sel _ post

/-! ### Step lemmas for the `free_range` placement loop -/

theorem free_scan_left_merge {rng p c : Range} {t : List Range}
    (h1 : rng.stop = c.start) (hm : p.stop = rng.start) :
    free_scan rng p (c :: t) = some (⟨p.start, c.stop⟩ :: t) := by
  rcases t with - | ⟨d, t2⟩ <;> simp [free_scan, h1, hm]

theorem free_scan_left {rng p c : Range} {t : List Range}
    (h1 : rng.stop = c.start) (hm : ¬p.stop = rng.start) :
    free_scan rng p (c :: t) = some (p :: ⟨rng.start, c.stop⟩ :: t) := by
  rcases t with - | ⟨d, t2⟩ <;> simp [free_scan, h1, hm]

theorem free_scan_right_merge {rng p c d : Range} {t2 : List Range}
    (h1 : ¬rng.stop = c.start) (h2 : rng.start = c.stop) (hm : d.start = rng.stop) :
    free_scan rng p (c :: d :: t2) = some (p :: ⟨c.start, d.stop⟩ :: t2) := by
  simp [free_scan, h1, h2, hm]

theorem free_scan_right {rng p c d : Range} {t2 : List Range}
    (h1 : ¬rng.stop = c.start) (h2 : rng.start = c.stop) (hm : ¬d.start = rng.stop) :
    free_scan rng p (c :: d :: t2) = some (p :: ⟨c.start, rng.stop⟩ :: d :: t2) := by
  simp [free_scan, h1, h2, hm]

theorem free_scan_right_last {rng p c : Range}
    (h1 : ¬rng.stop = c.start) (h2 : rng.start = c.stop) :
    free_scan rng p [c] = some (p :: [⟨c.start, rng.stop⟩]) := by
  simp [free_scan, h1, h2]

theorem free_scan_between {rng p c d : Range} {t2 : List Range}
    (h1 : ¬rng.stop = c.start) (h2 : ¬rng.start = c.stop)
    (h3 : rng.start > c.stop ∧ rng.stop < d.start) :
    free_scan rng p (c :: d :: t2) = some (p :: c :: rng :: d :: t2) := by
  simp [free_scan, h1, h2, h3]

theorem free_scan_step {rng p c d : Range} {t2 : List Range}
    (h1 : ¬rng.stop = c.start) (h2 : ¬rng.start = c.stop)
    (h3 : ¬(rng.start > c.stop ∧ rng.stop < d.start)) :
    free_scan rng p (c :: d :: t2) =
      Option.map (fun l => p :: l) (free_scan rng c (d :: t2)) := by
  simp [free_scan, h1, h2, h3]

theorem free_scan_last_none {rng p c : Range}
    (h1 : ¬rng.stop = c.start) (h2 : ¬rng.start = c.stop) :
    free_scan rng p [c] = none := by
  simp [free_scan, h1, h2]

theorem free_first_left {rng c : Range} {t : List Range} (h1 : rng.stop = c.start) :
    free_first rng (c :: t) = some (⟨rng.start, c.stop⟩ :: t) := by
  rcases t with - | ⟨d, t2⟩ <;> simp [free_first, h1]

theorem free_first_right_merge {rng c d : Range} {t2 : List Range}
    (h1 : ¬rng.stop = c.start) (h2 : rng.start = c.stop) (hm : d.start = rng.stop) :
    free_first rng (c :: d :: t2) = some (⟨c.start, d.stop⟩ :: t2) := by
  simp [free_first, h1, h2, hm]

theorem free_first_right {rng c d : Range} {t2 : List Range}
    (h1 : ¬rng.stop = c.start) (h2 : rng.start = c.stop) (hm : ¬d.start = rng.stop) :
    free_first rng (c :: d :: t2) = some (⟨c.start, rng.stop⟩ :: d :: t2) := by
  simp [free_first, h1, h2, hm]

theorem free_first_right_last {rng c : Range}
    (h1 : ¬rng.stop = c.start) (h2 : rng.start = c.stop) :
    free_first rng [c] = some [⟨c.start, rng.stop⟩] := by
  simp [free_first, h1, h2]

theorem free_first_between {rng c d : Range} {t2 : List Range}
    (h1 : ¬rng.stop = c.start) (h2 : ¬rng.start = c.stop)
    (h3 : rng.start > c.stop ∧ rng.stop < d.start) :
    free_first rng (c :: d :: t2) = some (c :: rng :: d :: t2) := by
  simp [free_first, h1, h2, h3]

theorem free_first_step {rng c d : Range} {t2 : List Range}
    (h1 : ¬rng.stop = c.start) (h2 : ¬rng.start = c.stop)
    (h3 : ¬(rng.start > c.stop ∧ rng.stop < d.start)) :
    free_first rng (c :: d :: t2) = free_scan rng c (d :: t2) := by
  simp [free_first, h1, h2, h3]

theorem free_first_last_none {rng c : Range}
    (h1 : ¬rng.stop = c.start) (h2 : ¬rng.start = c.stop) :
    free_first rng [c] = none := by
  simp [free_first, h1, h2]

theorem free_list_insert_prepend {rng c : Range} {t : List Range}
    (h1 : c.start > rng.stop) :
    free_list_insert rng (c :: t) = some (rng :: c :: t) := by
  simp [free_list_insert, h1]

theorem free_list_insert_cons (rng c : Range) (t : List Range) :
    free_list_insert rng (c :: t) =
      if c.start > rng.stop then some (rng :: c :: t)
      else if (List.getLastD t c).stop < rng.start then some ((c :: t) ++ [rng])
      else free_first rng (c :: t) := rfl

theorem free_list_insert_append {rng c : Range} {t : List Range}
    (h1 : ¬c.start > rng.stop) (h2 : (List.getLastD t c).stop < rng.start) :
    free_list_insert rng (c :: t) = some ((c :: t) ++ [rng]) := by
  rw [free_list_insert_cons, if_neg h1, if_pos h2]

theorem free_list_insert_loop {rng c : Range} {t : List Range}
    (h1 : ¬c.start > rng.stop) (h2 : ¬(List.getLastD t c).stop < rng.start) :
    free_list_insert rng (c :: t) = free_first rng (c :: t) := by
  rw [free_list_insert_cons, if_neg h1, if_neg h2]

/-! ### Conservation of total free size under `free_range` -/

/-- Sum of the sizes of the entries of a list. -/
def sumSizes (l : List Range) : Int := (l.map Range.size).sum

theorem sumSizes_cons (r : Range) (l : List Range) :
    sumSizes (r :: l) = r.size + sumSizes l := by
  simp [sumSizes]

theorem sumSizes_append (l1 l2 : List Range) :
    sumSizes (l1 ++ l2) = sumSizes l1 + sumSizes l2 := by
  simp [sumSizes]

theorem free_scan_sum {rng : Range} :
    ∀ (t : List Range) (p : Range) (l' : List Range), free_scan rng p t = some l' →
      sumSizes l' = sumSizes (p :: t) + rng.size := by
  intro t
  induction t with
  | nil => intro p l' h; cases h
  | cons c t2 ih =>
    intro p l' h
    by_cases h1 : rng.stop = c.start
    · by_cases hm : p.stop = rng.start
      · rw [free_scan_left_merge h1 hm] at h
        obtain rfl := Option.some.inj h
        simp [sumSizes, Range.size]
        omega
      · rw [free_scan_left h1 hm] at h
        obtain rfl := Option.some.inj h
        simp [sumSizes, Range.size]
        omega
    · by_cases h2 : rng.start = c.stop
      · match t2 with
        | d :: t3 =>
          by_cases hm : d.start = rng.stop
          · rw [free_scan_right_merge h1 h2 hm] at h
            obtain rfl := Option.some.inj h
            simp [sumSizes, Range.size]
            omega
          · rw [free_scan_right h1 h2 hm] at h
            obtain rfl := Option.some.inj h
            simp [sumSizes, Range.size]
            omega
        | [] =>
          rw [free_scan_right_last h1 h2] at h
          obtain rfl := Option.some.inj h
          simp [sumSizes, Range.size]
          omega
      · match t2 with
        | d :: t3 =>
          by_cases h3 : rng.start > c.stop ∧ rng.stop < d.start
          · rw [free_scan_between h1 h2 h3] at h
            obtain rfl := Option.some.inj h
            simp [sumSizes, Range.size]
            omega
          · rw [free_scan_step h1 h2 h3] at h
            rcases hrec : free_scan rng c (d :: t3) with - | l2
            · rw [hrec] at h; cases h
            · rw [hrec] at h
              obtain rfl := Option.some.inj h
              have := ih c l2 hrec
              simp only [sumSizes_cons] at this ⊢
              omega
        | [] =>
          rw [free_scan_last_none h1 h2] at h
          cases h

theorem free_first_sum {rng : Range} {t : List Range} {l' : List Range}
    (h : free_first rng t = some l') : sumSizes l' = sumSizes t + rng.size := by
  match t with
  | [] => cases h
  | c :: t2 =>
    by_cases h1 : rng.stop = c.start
    · rw [free_first_left h1] at h
      obtain rfl := Option.some.inj h
      simp [sumSizes, Range.size]
      omega
    · by_cases h2 : rng.start = c.stop
      · match t2 with
        | d :: t3 =>
          by_cases hm : d.start = rng.stop
          · rw [free_first_right_merge h1 h2 hm] at h
            obtain rfl := Option.some.inj h
            simp [sumSizes, Range.size]
            omega
          · rw [free_first_right h1 h2 hm] at h
            obtain rfl := Option.some.inj h
            simp [sumSizes, Range.size]
            omega
        | [] =>
          rw [free_first_right_last h1 h2] at h
          obtain rfl := Option.some.inj h
          simp [sumSizes, Range.size]
          omega
      · match t2 with
        | d :: t3 =>
          by_cases h3 : rng.start > c.stop ∧ rng.stop < d.start
          · rw [free_first_between h1 h2 h3] at h
            obtain rfl := Option.some.inj h
            simp [sumSizes, Range.size]
            omega
          · rw [free_first_step h1 h2 h3] at h
            have := free_scan_sum (d :: t3) c l' h
            simp only [sumSizes_cons] at this ⊢
            omega
        | [] =>
          rw [free_first_last_none h1 h2] at h
          cases h

theorem free_list_insert_sum {rng : Range} {t : List Range} {l' : List Range}
    (h : free_list_insert rng t = some l') : sumSizes l' = sumSizes t + rng.size := by
  match t with
  | [] =>
    obtain rfl := Option.some.inj h
    simp [sumSizes]
  | c :: t2 =>
    by_cases h1 : c.start > rng.stop
    · rw [free_list_insert_prepend h1] at h
      obtain rfl := Option.some.inj h
      simp [sumSizes, Range.size]
      omega
    · by_cases h2 : (List.getLastD t2 c).stop < rng.start
      · rw [free_list_insert_append h1 h2] at h
        obtain rfl := Option.some.inj h
        simp [sumSizes, Range.size]
        omega
      · rw [free_list_insert_loop h1 h2] at h
        exact free_first_sum h

/-! ### `free_range` preserves the invariants on disjoint input -/

theorem ltR_def {a b : Range} : ltR a b ↔ a.stop < b.start := Iff.rfl

theorem getLastD_cons' (c d : Range) (t2 : List Range) :
    List.getLastD (d :: t2) c = List.getLastD t2 d := by
  cases t2 <;> rfl

theorem getLast?_cons_eq (c : Range) (t : List Range) :
    (c :: t).getLast? = some (List.getLastD t c) := by
  induction t generalizing c with
  | nil => rfl
  | cons d t2 ih => rw [List.getLast?_cons_cons, ih]; cases t2 <;> rfl

theorem getLastD_mem (c : Range) (t : List Range) : List.getLastD t c ∈ c :: t := by
  induction t generalizing c with
  | nil => exact List.mem_singleton.mpr rfl
  | cons d t2 ih =>
    rw [getLastD_cons']
    exact List.mem_cons_of_mem c (ih d)

/-- Invariant preservation along the inner placement loop: if the suffix
`p :: t` of the free list is well-formed, the freed range is nonempty, in
bounds, disjoint from every entry, strictly to the right of `p`, and not
strictly before the head of `t`, then a successful scan yields a
well-formed suffix that still begins at `p.start`. -/
theorem free_scan_wf {rng init : Range} :
    ∀ (t : List Range) (p : Range),
      List.Chain' ltR (p :: t) →
      (∀ x ∈ p :: t, x.start < x.stop) →
      (∀ x ∈ p :: t, init.start ≤ x.start ∧ x.stop ≤ init.stop) →
      (∀ x ∈ t, rng.stop ≤ x.start ∨ x.stop ≤ rng.start) →
      rng.start < rng.stop →
      init.start ≤ rng.start → rng.stop ≤ init.stop →
      p.stop < rng.start →
      (∀ c ∈ t.head?, c.start ≤ rng.stop) →
      ∀ l', free_scan rng p t = some l' →
        ∃ h0 rest, l' = h0 :: rest ∧ h0.start = p.start ∧
          List.Chain' ltR l' ∧ (∀ x ∈ l', x.start < x.stop) ∧
          (∀ x ∈ l', init.start ≤ x.start ∧ x.stop ≤ init.stop) := by
  intro t
  induction t with
  | nil => intro p _ _ _ _ _ _ _ _ _ l' h; cases h
  | cons c t2 ih =>
    intro p hch hne hbd hdisj hrng hrlo hrhi hp hhead l' h
    have hpc : ltR p c := (List.chain'_cons'.mp hch).1 c rfl
    have hct : List.Chain' ltR (c :: t2) := hch.tail
    have hcne : c.start < c.stop := hne c (by simp)
    have hcbd := hbd c (by simp)
    by_cases h1 : rng.stop = c.start
    · by_cases hm : p.stop = rng.start
      · exact absurd hm (by omega)
      · rw [free_scan_left h1 hm] at h
        obtain rfl := Option.some.inj h
        refine ⟨p, _, rfl, rfl, ?_, ?_, ?_⟩
        · rw [List.chain'_cons]
          refine ⟨by rw [ltR_def]; exact hp, ?_⟩
          refine List.chain'_cons'.mpr ⟨?_, hct.tail⟩
          intro y hy
          have := (List.chain'_cons'.mp hct).1 y hy
          rw [ltR_def] at this ⊢
          exact this
        · intro x hx
          rcases List.mem_cons.mp hx with rfl | hx
          · exact hne x (by simp)
          rcases List.mem_cons.mp hx with rfl | hx
          · show rng.start < c.stop; omega
          · exact hne x (by simp [hx])
        · intro x hx
          rcases List.mem_cons.mp hx with rfl | hx
          · exact hbd x (by simp)
          rcases List.mem_cons.mp hx with rfl | hx
          · exact ⟨hrlo, hcbd.2⟩
          · exact hbd x (by simp [hx])
    · by_cases h2 : rng.start = c.stop
      · match t2 with
        | d :: t3 =>
          have hdd : ltR c d := (List.chain'_cons'.mp hct).1 d rfl
          have hdne : d.start < d.stop := hne d (by simp)
          have hdbd := hbd d (by simp)
          have hdt : List.Chain' ltR (d :: t3) := hct.tail
          by_cases hm : d.start = rng.stop
          · rw [free_scan_right_merge h1 h2 hm] at h
            obtain rfl := Option.some.inj h
            refine ⟨p, _, rfl, rfl, ?_, ?_, ?_⟩
            · rw [List.chain'_cons]
              refine ⟨by rw [ltR_def] at hpc ⊢; exact hpc, ?_⟩
              refine List.chain'_cons'.mpr ⟨?_, hdt.tail⟩
              intro y hy
              have := (List.chain'_cons'.mp hdt).1 y hy
              rw [ltR_def] at this ⊢
              exact this
            · intro x hx
              rcases List.mem_cons.mp hx with rfl | hx
              · exact hne x (by simp)
              rcases List.mem_cons.mp hx with rfl | hx
              · show c.start < d.stop; rw [ltR_def] at hdd; omega
              · exact hne x (by simp [hx])
            · intro x hx
              rcases List.mem_cons.mp hx with rfl | hx
              · exact hbd x (by simp)
              rcases List.mem_cons.mp hx with rfl | hx
              · exact ⟨hcbd.1, hdbd.2⟩
              · exact hbd x (by simp [hx])
          · have hdr : rng.stop < d.start := by
              rcases hdisj d (by simp) with hd | hd
              · omega
              · rw [ltR_def] at hdd; omega
            rw [free_scan_right h1 h2 hm] at h
            obtain rfl := Option.some.inj h
            refine ⟨p, _, rfl, rfl, ?_, ?_, ?_⟩
            · rw [List.chain'_cons]
              refine ⟨by rw [ltR_def] at hpc ⊢; exact hpc, ?_⟩
              rw [List.chain'_cons]
              exact ⟨by rw [ltR_def]; exact hdr, hdt⟩
            · intro x hx
              rcases List.mem_cons.mp hx with rfl | hx
              · exact hne x (by simp)
              rcases List.mem_cons.mp hx with rfl | hx
              · show c.start < rng.stop; omega
              · exact hne x (by simp [hx])
            · intro x hx
              rcases List.mem_cons.mp hx with rfl | hx
              · exact hbd x (by simp)
              rcases List.mem_cons.mp hx with rfl | hx
              · exact ⟨hcbd.1, hrhi⟩
              · exact hbd x (by simp [hx])
        | [] =>
          rw [free_scan_right_last h1 h2] at h
          obtain rfl := Option.some.inj h
          refine ⟨p, _, rfl, rfl, ?_, ?_, ?_⟩
          · rw [List.chain'_cons]
            exact ⟨by rw [ltR_def] at hpc ⊢; exact hpc, List.chain'_singleton _⟩
          · intro x hx
            rcases List.mem_cons.mp hx with rfl | hx
            · exact hne x (by simp)
            rcases List.mem_cons.mp hx with rfl | hx
            · show c.start < rng.stop; omega
            · cases hx
          · intro x hx
            rcases List.mem_cons.mp hx with rfl | hx
            · exact hbd x (by simp)
            rcases List.mem_cons.mp hx with rfl | hx
            · exact ⟨hcbd.1, hrhi⟩
            · cases hx
      · have hcr : c.stop < rng.start := by
          rcases hdisj c (by simp) with hd | hd
          · have := hhead c rfl
            omega
          · omega
        match t2 with
        | d :: t3 =>
          have hdd : ltR c d := (List.chain'_cons'.mp hct).1 d rfl
          have hdt : List.Chain' ltR (d :: t3) := hct.tail
          by_cases h3 : rng.start > c.stop ∧ rng.stop < d.start
          · rw [free_scan_between h1 h2 h3] at h
            obtain rfl := Option.some.inj h
            refine ⟨p, _, rfl, rfl, ?_, ?_, ?_⟩
            · rw [List.chain'_cons]
              refine ⟨by rw [ltR_def] at hpc ⊢; exact hpc, ?_⟩
              rw [List.chain'_cons]
              refine ⟨by rw [ltR_def]; exact h3.1, ?_⟩
              rw [List.chain'_cons]
              exact ⟨by rw [ltR_def]; exact h3.2, hdt⟩
            · intro x hx
              rcases List.mem_cons.mp hx with rfl | hx
              · exact hne x (by simp)
              rcases List.mem_cons.mp hx with rfl | hx
              · exact hcne
              rcases List.mem_cons.mp hx with rfl | hx
              · exact hrng
              · exact hne x (by simp [hx])
            · intro x hx
              rcases List.mem_cons.mp hx with rfl | hx
              · exact hbd x (by simp)
              rcases List.mem_cons.mp hx with rfl | hx
              · exact hcbd
              rcases List.mem_cons.mp hx with rfl | hx
              · exact ⟨hrlo, hrhi⟩
              · exact hbd x (by simp [hx])
          · rw [free_scan_step h1 h2 h3] at h
            rcases hrec : free_scan rng c (d :: t3) with - | l2
            · rw [hrec] at h; cases h
            · rw [hrec] at h
              obtain rfl := Option.some.inj h
              have hhead' : ∀ e ∈ (d :: t3).head?, e.start ≤ rng.stop := by
                intro e he
                obtain rfl := Option.some.inj he
                by_contra hlt
                exact h3 ⟨by omega, by omega⟩
              obtain ⟨h0, rest, rfl, hh0, hch', hne', hbd'⟩ :=
                ih c hct (fun x hx => hne x (List.mem_cons_of_mem p hx))
                  (fun x hx => hbd x (List.mem_cons_of_mem p hx))
                  (fun x hx => hdisj x (List.mem_cons_of_mem c hx))
                  hrng hrlo hrhi hcr hhead' l2 hrec
              refine ⟨p, h0 :: rest, rfl, rfl, ?_, ?_, ?_⟩
              · rw [List.chain'_cons]
                refine ⟨?_, hch'⟩
                rw [ltR_def, hh0]
                rw [ltR_def] at hpc
                exact hpc
              · intro x hx
                rcases List.mem_cons.mp hx with rfl | hx
                · exact hne x (by simp)
                · exact hne' x hx
              · intro x hx
                rcases List.mem_cons.mp hx with rfl | hx
                · exact hbd x (by simp)
                · exact hbd' x hx
        | [] =>
          rw [free_scan_last_none h1 h2] at h
          cases h

/-- Invariant preservation for the placement loop started at position 0. -/
theorem free_first_wf {rng init : Range} {t : List Range} {c : Range}
    (hch : List.Chain' ltR (c :: t))
    (hne : ∀ x ∈ c :: t, x.start < x.stop)
    (hbd : ∀ x ∈ c :: t, init.start ≤ x.start ∧ x.stop ≤ init.stop)
    (hdisj : ∀ x ∈ c :: t, rng.stop ≤ x.start ∨ x.stop ≤ rng.start)
    (hrng : rng.start < rng.stop)
    (hrlo : init.start ≤ rng.start) (hrhi : rng.stop ≤ init.stop)
    (hc0 : c.start ≤ rng.stop) :
    ∀ l', free_first rng (c :: t) = some l' →
      List.Chain' ltR l' ∧ (∀ x ∈ l', x.start < x.stop) ∧
      (∀ x ∈ l', init.start ≤ x.start ∧ x.stop ≤ init.stop) := by
  intro l' h
  have hct : List.Chain' ltR t := hch.tail
  have hcne : c.start < c.stop := hne c (by simp)
  have hcbd := hbd c (by simp)
  by_cases h1 : rng.stop = c.start
  · rw [free_first_left h1] at h
    obtain rfl := Option.some.inj h
    refine ⟨?_, ?_, ?_⟩
    · refine List.chain'_cons'.mpr ⟨?_, hct⟩
      intro y hy
      have := (List.chain'_cons'.mp hch).1 y hy
      rw [ltR_def] at this ⊢
      exact this
    · intro x hx
      rcases List.mem_cons.mp hx with rfl | hx
      · show rng.start < c.stop; omega
      · exact hne x (by simp [hx])
    · intro x hx
      rcases List.mem_cons.mp hx with rfl | hx
      · exact ⟨hrlo, hcbd.2⟩
      · exact hbd x (by simp [hx])
  · by_cases h2 : rng.start = c.stop
    · match t, hct, hch with
      | d :: t3, hct, hch =>
        have hdd : ltR c d := (List.chain'_cons'.mp hch).1 d rfl
        have hdne : d.start < d.stop := hne d (by simp)
        have hdbd := hbd d (by simp)
        have hdt : List.Chain' ltR t3 := hct.tail
        by_cases hm : d.start = rng.stop
        · rw [free_first_right_merge h1 h2 hm] at h
          obtain rfl := Option.some.inj h
          refine ⟨?_, ?_, ?_⟩
          · refine List.chain'_cons'.mpr ⟨?_, hdt⟩
            intro y hy
            have := (List.chain'_cons'.mp hct).1 y hy
            rw [ltR_def] at this ⊢
            exact this
          · intro x hx
            rcases List.mem_cons.mp hx with rfl | hx
            · show c.start < d.stop; rw [ltR_def] at hdd; omega
            · exact hne x (by simp [hx])
          · intro x hx
            rcases List.mem_cons.mp hx with rfl | hx
            · exact ⟨hcbd.1, hdbd.2⟩
            · exact hbd x (by simp [hx])
        · have hdr : rng.stop < d.start := by
            rcases hdisj d (by simp) with hd | hd
            · omega
            · rw [ltR_def] at hdd; omega
          rw [free_first_right h1 h2 hm] at h
          obtain rfl := Option.some.inj h
          refine ⟨?_, ?_, ?_⟩
          · rw [List.chain'_cons]
            exact ⟨by rw [ltR_def]; exact hdr, hct⟩
          · intro x hx
            rcases List.mem_cons.mp hx with rfl | hx
            · show c.start < rng.stop; omega
            · exact hne x (by simp [hx])
          · intro x hx
            rcases List.mem_cons.mp hx with rfl | hx
            · exact ⟨hcbd.1, hrhi⟩
            · exact hbd x (by simp [hx])
      | [], hct, hch =>
        rw [free_first_right_last h1 h2] at h
        obtain rfl := Option.some.inj h
        refine ⟨List.chain'_singleton _, ?_, ?_⟩
        · intro x hx
          rcases List.mem_cons.mp hx with rfl | hx
          · show c.start < rng.stop; omega
          · cases hx
        · intro x hx
          rcases List.mem_cons.mp hx with rfl | hx
          · exact ⟨hcbd.1, hrhi⟩
          · cases hx
    · have hcr : c.stop < rng.start := by
        rcases hdisj c (by simp) with hd | hd
        · omega
        · omega
      match t, hct, hch with
      | d :: t3, hct, hch =>
        have hdd : ltR c d := (List.chain'_cons'.mp hch).1 d rfl
        by_cases h3 : rng.start > c.stop ∧ rng.stop < d.start
        · rw [free_first_between h1 h2 h3] at h
          obtain rfl := Option.some.inj h
          refine ⟨?_, ?_, ?_⟩
          · rw [List.chain'_cons]
            refine ⟨by rw [ltR_def]; exact h3.1, ?_⟩
            rw [List.chain'_cons]
            exact ⟨by rw [ltR_def]; exact h3.2, hct⟩
          · intro x hx
            rcases List.mem_cons.mp hx with rfl | hx
            · exact hcne
            rcases List.mem_cons.mp hx with rfl | hx
            · exact hrng
            · exact hne x (by simp [hx])
          · intro x hx
            rcases List.mem_cons.mp hx with rfl | hx
            · exact hcbd
            rcases List.mem_cons.mp hx with rfl | hx
            · exact ⟨hrlo, hrhi⟩
            · exact hbd x (by simp [hx])
        · rw [free_first_step h1 h2 h3] at h
          have hhead' : ∀ e ∈ (d :: t3).head?, e.start ≤ rng.stop := by
            intro e he
            obtain rfl := Option.some.inj he
            by_contra hlt
            exact h3 ⟨by omega, by omega⟩
          obtain ⟨h0, rest, rfl, hh0, hch', hne', hbd'⟩ :=
            free_scan_wf (d :: t3) c hch hne hbd
              (fun x hx => hdisj x (List.mem_cons_of_mem c hx))
              hrng hrlo hrhi hcr hhead' l' h
          exact ⟨hch', hne', hbd'⟩
      | [], hct, hch =>
        rw [free_first_last_none h1 h2] at h
        cases h

/-- Invariant preservation for the whole free-list insertion: freeing a
nonempty, in-bounds range that is disjoint from every free entry keeps
the free list well-formed and in bounds. -/
theorem free_list_insert_wf {rng init : Range} {fr : List Range}
    (hwf : FreeListWf fr) (hbd : InBounds init fr)
    (hdisj : ∀ x ∈ fr, rng.stop ≤ x.start ∨ x.stop ≤ rng.start)
    (hrng : rng.start < rng.stop)
    (hrlo : init.start ≤ rng.start) (hrhi : rng.stop ≤ init.stop) :
    ∀ fr', free_list_insert rng fr = some fr' →
      FreeListWf fr' ∧ InBounds init fr' := by
  intro fr' h
  match fr with
  | [] =>
    obtain rfl := Option.some.inj h
    refine ⟨⟨List.chain'_singleton _, ?_⟩, ?_⟩
    · intro x hx
      rcases List.mem_singleton.mp hx with rfl
      exact hrng
    · intro x hx
      rcases List.mem_singleton.mp hx with rfl
      exact ⟨hrlo, hrhi⟩
  | c :: t =>
    by_cases h1 : c.start > rng.stop
    · rw [free_list_insert_prepend h1] at h
      obtain rfl := Option.some.inj h
      refine ⟨⟨?_, ?_⟩, ?_⟩
      · rw [List.chain'_cons]
        exact ⟨by rw [ltR_def]; omega, hwf.1⟩
      · intro x hx
        rcases List.mem_cons.mp hx with rfl | hx
        · exact hrng
        · exact hwf.2 x hx
      · intro x hx
        rcases List.mem_cons.mp hx with rfl | hx
        · exact ⟨hrlo, hrhi⟩
        · exact hbd x hx
    · by_cases h2 : (List.getLastD t c).stop < rng.start
      · rw [free_list_insert_append h1 h2] at h
        obtain rfl := Option.some.inj h
        refine ⟨⟨?_, ?_⟩, ?_⟩
        · rw [List.chain'_append]
          refine ⟨hwf.1, List.chain'_singleton _, ?_⟩
          intro x hx y hy
          rw [getLast?_cons_eq] at hx
          obtain rfl := Option.some.inj hx
          obtain rfl := Option.some.inj hy
          rw [ltR_def]
          exact h2
        · intro x hx
          rcases List.mem_append.mp hx with hx | hx
          · exact hwf.2 x hx
          · rcases List.mem_singleton.mp hx with rfl
            exact hrng
        · intro x hx
          rcases List.mem_append.mp hx with hx | hx
          · exact hbd x hx
          · rcases List.mem_singleton.mp hx with rfl
            exact ⟨hrlo, hrhi⟩
      · rw [free_list_insert_loop h1 h2] at h
        have hc0 : c.start ≤ rng.stop := by omega
        have ⟨hch', hne', hbd'⟩ :=
          free_first_wf hwf.1 hwf.2 hbd hdisj hrng hrlo hrhi hc0 fr' h
        exact ⟨⟨hch', hne'⟩, hbd'⟩

/-- A failed `allocate_range` leaves the allocator unchanged, and happens
exactly when no free entry is large enough. -/
theorem allocate_range_none_spec {a : RangeAllocator} {len : Int} {a' : RangeAllocator}
    (h : a.allocate_range len = (none, a')) :
    a' = a ∧ ∀ r ∈ a.free_ranges, r.stop - r.start < len := by
  unfold RangeAllocator.allocate_range at h
  rcases hb : bestFitLoop len a.free_ranges 0 none with - | ⟨i, sel⟩
  · rw [hb] at h
    refine ⟨(congrArg Prod.snd h).symm, ?_⟩
    exact ((bestFitLoop_eq_none a.free_ranges 0 none).mp hb).2
  · rw [hb] at h
    dsimp only at h
    by_cases hexact : sel.stop - sel.start = len
    · rw [if_pos hexact] at h
      cases congrArg Prod.fst h
    · rw [if_neg hexact] at h
      cases congrArg Prod.fst h

/-! ### Operation-level consequences -/

/-- The precondition checked by `free_range`'s two assertions. -/
def FreePre (a : RangeAllocator) (rng : Range) : Prop :=
  a.initial_range.start ≤ rng.start ∧ rng.stop ≤ a.initial_range.stop ∧ rng.start < rng.stop

instance (a : RangeAllocator) (rng : Range) : Decidable (FreePre a rng) :=
  inferInstanceAs (Decidable (_ ∧ _ ∧ _))

/-- The embedded `free_range` panics (an assertion fires) iff the precondition fails. -/
theorem free_range_none_iff (a : RangeAllocator) (rng : Range) :
    a.free_range rng = none ↔ ¬FreePre a rng := by
  unfold RangeAllocator.free_range FreePre
  by_cases hb : a.initial_range.start ≤ rng.start ∧ rng.stop ≤ a.initial_range.stop
  · rw [if_pos hb]
    by_cases hne : rng.start < rng.stop
    · rw [if_pos hne]
      rcases hfi : free_list_insert rng a.free_ranges with - | fr <;> simp [hfi, hb, hne]
    · rw [if_neg hne]
      simp [hb, hne]
  · rw [if_neg hb]
    simp only [true_iff, eq_self_iff_true]
    intro hc
    exact hb ⟨hc.1, hc.2.1⟩

/-- Decomposition of a successful (`Ok`) `free_range`. -/
theorem free_range_ok_spec {a : RangeAllocator} {rng : Range} {a' : RangeAllocator}
    (h : a.free_range rng = some (Except.ok (), a')) :
    FreePre a rng ∧ a'.initial_range = a.initial_range ∧
      free_list_insert rng a.free_ranges = some a'.free_ranges := by
  unfold RangeAllocator.free_range at h
  by_cases hb : a.initial_range.start ≤ rng.start ∧ rng.stop ≤ a.initial_range.stop
  · rw [if_pos hb] at h
    by_cases hne : rng.start < rng.stop
    · rw [if_pos hne] at h
      rcases hfi : free_list_insert rng a.free_ranges with - | fr
      · rw [hfi] at h
        simp only [Option.some.injEq, Prod.mk.injEq] at h
        cases h.1
      · rw [hfi] at h
        have h2 : ({ a with free_ranges := fr } : RangeAllocator) = a' :=
          congrArg Prod.snd (Option.some.inj h)
        subst h2
        exact ⟨⟨hb.1, hb.2, hne⟩, rfl, rfl⟩
    · rw [if_neg hne] at h; cases h
  · rw [if_neg hb] at h; cases h

/-- Decomposition of a failed (`Err`) `free_range`: the allocator is
returned exactly as it was. -/
theorem free_range_error_spec {a : RangeAllocator} {rng : Range} {e : Unit}
    {a' : RangeAllocator} (h : a.free_range rng = some (Except.error e, a')) :
    a' = a ∧ FreePre a rng ∧ free_list_insert rng a.free_ranges = none := by
  unfold RangeAllocator.free_range at h
  by_cases hb : a.initial_range.start ≤ rng.start ∧ rng.stop ≤ a.initial_range.stop
  · rw [if_pos hb] at h
    by_cases hne : rng.start < rng.stop
    · rw [if_pos hne] at h
      rcases hfi : free_list_insert rng a.free_ranges with - | fr
      · rw [hfi] at h
        have h2 : a = a' := congrArg Prod.snd (Option.some.inj h)
        exact ⟨h2.symm, ⟨hb.1, hb.2, hne⟩, rfl⟩
      · rw [hfi] at h
        cases congrArg Prod.fst (Option.some.inj h)
    · rw [if_neg hne] at h; cases h
  · rw [if_neg hb] at h; cases h

/-- A successful `free_range` of a range disjoint from every free entry
preserves the allocator invariant. -/
theorem free_range_ok_wf {a : RangeAllocator} {rng : Range} {a' : RangeAllocator}
    (hwf : Wf a)
    (hdisj : ∀ x ∈ a.free_ranges, rng.stop ≤ x.start ∨ x.stop ≤ rng.start)
    (h : a.free_range rng = some (Except.ok (), a')) :
    Wf a' ∧ a'.initial_range = a.initial_range := by
  obtain ⟨⟨hlo, hhi, hne⟩, hinit, hfi⟩ := free_range_ok_spec h
  obtain ⟨hwf', hbd'⟩ :=
    free_list_insert_wf hwf.1 hwf.2 hdisj hne hlo hhi a'.free_ranges hfi
  exact ⟨⟨hwf', by rw [hinit]; exact hbd'⟩, hinit⟩

theorem freeListWf_append_erase {pre post : List Range} {sel : Range}
    (h : FreeListWf (pre ++ sel :: post)) : FreeListWf (pre ++ post) := by
  obtain ⟨hch, hne⟩ := h
  rw [List.chain'_append] at hch
  obtain ⟨hpre, hsp, hedge⟩ := hch
  have hselne : sel.start < sel.stop := hne sel (by simp)
  constructor
  · rw [List.chain'_append]
    refine ⟨hpre, hsp.tail, ?_⟩
    intro x hx y hy
    have h1 := hedge x hx sel rfl
    have h2 := (List.chain'_cons'.mp hsp).1 y (by cases post with
      | nil => cases hy
      | cons z zs => exact hy)
    rw [ltR_def] at h1 h2 ⊢
    omega
  · intro x hx
    rcases List.mem_append.mp hx with hx | hx
    · exact hne x (by simp [hx])
    · exact hne x (by simp [hx])

theorem freeListWf_append_shrink {pre post : List Range} {sel : Range} {s2 : Int}
    (h : FreeListWf (pre ++ sel :: post)) (hlo : sel.start ≤ s2) (hhi : s2 < sel.stop) :
    FreeListWf (pre ++ (⟨s2, sel.stop⟩ : Range) :: post) := by
  obtain ⟨hch, hne⟩ := h
  rw [List.chain'_append] at hch
  obtain ⟨hpre, hsp, hedge⟩ := hch
  constructor
  · rw [List.chain'_append]
    refine ⟨hpre, ?_, ?_⟩
    · refine List.chain'_cons'.mpr ⟨?_, hsp.tail⟩
      intro y hy
      have := (List.chain'_cons'.mp hsp).1 y hy
      rw [ltR_def] at this ⊢
      exact this
    · intro x hx y hy
      obtain rfl := Option.some.inj hy
      have h1 := hedge x hx sel rfl
      rw [ltR_def] at h1 ⊢
      show x.stop < s2
      omega
  · intro x hx
    rcases List.mem_append.mp hx with hx | hx
    · exact hne x (by simp [hx])
    rcases List.mem_cons.mp hx with rfl | hx
    · exact hhi
    · exact hne x (by simp [hx])

theorem inBounds_append_erase {init : Range} {pre post : List Range} {sel : Range}
    (h : InBounds init (pre ++ sel :: post)) : InBounds init (pre ++ post) := by
  intro x hx
  rcases List.mem_append.mp hx with hx | hx
  · exact h x (by simp [hx])
  · exact h x (by simp [hx])

theorem inBounds_append_shrink {init : Range} {pre post : List Range} {sel : Range}
    {s2 : Int} (h : InBounds init (pre ++ sel :: post)) (hlo : sel.start ≤ s2)
    (hhi : s2 < sel.stop) : InBounds init (pre ++ (⟨s2, sel.stop⟩ : Range) :: post) := by
  intro x hx
  have hsel := h sel (by simp)
  rcases List.mem_append.mp hx with hx | hx
  · exact h x (by simp [hx])
  rcases List.mem_cons.mp hx with rfl | hx
  · constructor
    · show init.start ≤ s2; omega
    · show sel.stop ≤ init.stop; exact hsel.2
  · exact h x (by simp [hx])

/-- Calling `allocate_range` with positive length preserves the invariant. -/
theorem allocate_range_wf {a : RangeAllocator} {len : Int} {res : Option Range}
    {a' : RangeAllocator} (hwf : Wf a) (hlen : 0 < len)
    (h : a.allocate_range len = (res, a')) :
    Wf a' ∧ a'.initial_range = a.initial_range := by
  rcases res with - | r
  · obtain ⟨rfl, -⟩ := allocate_range_none_spec h
    exact ⟨hwf, rfl⟩
  · obtain ⟨pre, sel, post, hfr, hq, -, -, rfl, hinit, hfr'⟩ := allocate_range_some_spec h
    refine ⟨⟨?_, ?_⟩, hinit⟩
    · rw [hfr']
      by_cases hexact : sel.size = len
      · rw [if_pos hexact]
        exact freeListWf_append_erase (hfr ▸ hwf.1)
      · rw [if_neg hexact]
        have : len < sel.size := lt_of_le_of_ne hq (fun he => hexact he.symm)
        exact freeListWf_append_shrink (hfr ▸ hwf.1) (by omega)
          (by simp only [Range.size] at this; omega)
    · rw [hfr', hinit]
      by_cases hexact : sel.size = len
      · rw [if_pos hexact]
        exact inBounds_append_erase (hfr ▸ hwf.2)
      · rw [if_neg hexact]
        have : len < sel.size := lt_of_le_of_ne hq (fun he => hexact he.symm)
        exact inBounds_append_shrink (hfr ▸ hwf.2) (by omega)
          (by simp only [Range.size] at this; omega)

/-- Construction via `new` on a nonempty range establishes the invariant. -/
theorem new_wf {rng : Range} (h : rng.start < rng.stop) : Wf (RangeAllocator.new rng) := by
  refine ⟨⟨List.chain'_singleton _, ?_⟩, ?_⟩
  · intro x hx
    rcases List.mem_singleton.mp hx with rfl
    exact h
  · intro x hx
    rcases List.mem_singleton.mp hx with rfl
    exact ⟨le_refl _, le_refl _⟩

/-- Calling `reset` establishes the invariant whenever the initial range is
nonempty. -/
theorem reset_wf {a : RangeAllocator} (h : a.initial_range.start < a.initial_range.stop) :
    Wf a.reset := by
  refine ⟨⟨List.chain'_singleton _, ?_⟩, ?_⟩
  · intro x hx
    rcases List.mem_singleton.mp hx with rfl
    exact h
  · intro x hx
    rcases List.mem_singleton.mp hx with rfl
    exact ⟨le_refl _, le_refl _⟩


/-! ### Conservation along reachable histories -/

theorem sumSizes_erase {r : Range} {out : List Range} (h : r ∈ out) :
    sumSizes out = r.size + sumSizes (out.erase r) := by
  have hp : List.Perm out (r :: out.erase r) := List.perm_cons_erase h
  have := (hp.map Range.size).sum_eq
  simpa [sumSizes] using this

/-- A successful allocation removes exactly `len` from the total free
size and returns a range of size `len`. -/
theorem allocate_range_some_sum {a : RangeAllocator} {len : Int} {r : Range}
    {a' : RangeAllocator} (h : a.allocate_range len = (some r, a')) :
    sumSizes a'.free_ranges = sumSizes a.free_ranges - len ∧ r.size = len := by
  obtain ⟨pre, sel, post, hfr, -, -, -, rfl, -, hfr'⟩ := allocate_range_some_spec h
  refine ⟨?_, by simp [Range.size]⟩
  rw [hfr', hfr]
  by_cases hexact : sel.size = len
  · rw [if_pos hexact]
    rw [sumSizes_append, sumSizes_append, sumSizes_cons]
    have hs : Range.size sel = sel.stop - sel.start := rfl
    simp only [Range.size] at hexact
    omega
  · rw [if_neg hexact]
    rw [sumSizes_append, sumSizes_append, sumSizes_cons, sumSizes_cons]
    have hs : Range.size sel = sel.stop - sel.start := rfl
    simp only [Range.size]
    omega

/-- Conservation: along every legal history, the total size of the free
list plus the total size of the outstanding allocations is the size of
the initial range, and the initial range never changes. -/
theorem reach_conservation {init : Range} {a : RangeAllocator} {out : List Range}
    (h : Reach init a out) :
    a.initial_range = init ∧
      sumSizes a.free_ranges + sumSizes out = init.stop - init.start := by
  induction h with
  | base =>
    simp [RangeAllocator.new, sumSizes, Range.size]
  | alloc_ok hr hstep ih =>
    obtain ⟨hsum, hsz⟩ := allocate_range_some_sum hstep
    obtain ⟨-, -, -, -, -, -, -, -, hinit, -⟩ := allocate_range_some_spec hstep
    refine ⟨by rw [hinit, ih.1], ?_⟩
    rw [sumSizes_cons, hsum, hsz]
    omega
  | alloc_fail hr hstep ih =>
    obtain ⟨rfl, -⟩ := allocate_range_none_spec hstep
    exact ih
  | free_ok hr hmem hstep ih =>
    obtain ⟨-, hinit, hfi⟩ := free_range_ok_spec hstep
    have hsum := free_list_insert_sum hfi
    have herase := sumSizes_erase hmem
    refine ⟨by rw [hinit, ih.1], ?_⟩
    omega
  | free_err hr hmem hstep ih =>
    obtain ⟨rfl, -, -⟩ := free_range_error_spec hstep
    exact ih

/-! ### When no placement applies: the `Err` path -/

theorem free_scan_nil {rng p : Range} : free_scan rng p [] = none := rfl

theorem le_getLastD_stop {c : Range} {t : List Range} (h : FreeListWf (c :: t)) :
    ∀ x ∈ c :: t, x.stop ≤ (List.getLastD t c).stop := by
  induction t generalizing c with
  | nil =>
    intro x hx
    rcases List.mem_singleton.mp hx with rfl
    exact le_refl _
  | cons d t2 ih =>
    intro x hx
    rw [getLastD_cons']
    have hcd : ltR c d := (List.chain'_cons'.mp h.1).1 d rfl
    have hdne : d.start < d.stop := h.2 d (by simp)
    rcases List.mem_cons.mp hx with rfl | hx
    · have := ih h.tail d (by simp)
      rw [ltR_def] at hcd
      omega
    · exact ih h.tail x hx

/-- If the freed range overlaps some entry at or after the scan position
and touches no entry boundary, the inner loop finds no placement. -/
theorem free_scan_overlap_none {rng : Range} :
    ∀ (t : List Range) (p : Range),
      List.Chain' ltR (p :: t) →
      (∀ x ∈ p :: t, x.start < x.stop) →
      (∀ x ∈ t, rng.stop ≠ x.start ∧ rng.start ≠ x.stop) →
      (rng.start < p.stop ∨ ∃ x ∈ t, overlaps rng x) →
      free_scan rng p t = none := by
  intro t
  induction t with
  | nil => intro p _ _ _ _; exact free_scan_nil
  | cons c t2 ih =>
    intro p hch hne hbnd hinv
    have hpc : ltR p c := (List.chain'_cons'.mp hch).1 c rfl
    have hcne : c.start < c.stop := hne c (by simp)
    have h1 : ¬rng.stop = c.start := (hbnd c (by simp)).1
    have h2 : ¬rng.start = c.stop := (hbnd c (by simp)).2
    match t2 with
    | d :: t3 =>
      have hdne : d.start < d.stop := hne d (by simp)
      have hwfd : FreeListWf (d :: t3) :=
        ⟨(hch.tail).tail, fun x hx => hne x (by simp [List.mem_cons.mp hx])⟩
      by_cases h3 : rng.start > c.stop ∧ rng.stop < d.start
      · exfalso
        rcases hinv with hinv | ⟨x, hx, hov⟩
        · rw [ltR_def] at hpc; omega
        · obtain ⟨hov1, hov2⟩ := hov
          rcases List.mem_cons.mp hx with rfl | hx
          · omega
          · rcases List.mem_cons.mp hx with rfl | hx
            · omega
            · have := FreeListWf.head_lt_all hwfd x hx
              omega
      · rw [free_scan_step h1 h2 h3]
        rw [ih c hch.tail (fun x hx => hne x (List.mem_cons_of_mem p hx))
          (fun x hx => hbnd x (List.mem_cons_of_mem c hx)) ?_]
        · rfl
        · rcases hinv with hinv | ⟨x, hx, hov⟩
          · left
            rw [ltR_def] at hpc
            omega
          · rcases List.mem_cons.mp hx with rfl | hx
            · left
              exact hov.1
            · right
              exact ⟨x, hx, hov⟩
    | [] =>
      exact free_scan_last_none h1 h2

/-- Same, for the loop started at position 0. -/
theorem free_first_overlap_none {rng c : Range} {t : List Range}
    (hch : List.Chain' ltR (c :: t))
    (hne : ∀ x ∈ c :: t, x.start < x.stop)
    (hbnd : ∀ x ∈ c :: t, rng.stop ≠ x.start ∧ rng.start ≠ x.stop)
    (hinv : ∃ x ∈ c :: t, overlaps rng x) :
    free_first rng (c :: t) = none := by
  have hcne : c.start < c.stop := hne c (by simp)
  have h1 : ¬rng.stop = c.start := (hbnd c (by simp)).1
  have h2 : ¬rng.start = c.stop := (hbnd c (by simp)).2
  match t with
  | d :: t3 =>
    have hdne : d.start < d.stop := hne d (by simp)
    have hwfd : FreeListWf (d :: t3) :=
      ⟨hch.tail, fun x hx => hne x (by simp [List.mem_cons.mp hx])⟩
    by_cases h3 : rng.start > c.stop ∧ rng.stop < d.start
    · exfalso
      obtain ⟨x, hx, hov⟩ := hinv
      obtain ⟨hov1, hov2⟩ := hov
      rcases List.mem_cons.mp hx with rfl | hx
      · omega
      · rcases List.mem_cons.mp hx with rfl | hx
        · omega
        · have := FreeListWf.head_lt_all hwfd x hx
          omega
    · rw [free_first_step h1 h2 h3]
      apply free_scan_overlap_none (d :: t3) c hch
        (fun x hx => hne x hx) (fun x hx => hbnd x (List.mem_cons_of_mem c hx))
      obtain ⟨x, hx, hov⟩ := hinv
      rcases List.mem_cons.mp hx with rfl | hx
      · left
        exact hov.1
      · right
        exact ⟨x, hx, hov⟩
  | [] =>
    exact free_first_last_none h1 h2

/-- If the freed range overlaps some free entry and coincides with no
entry boundary, the whole insertion fails. -/
theorem free_list_insert_overlap_none {rng : Range} {fr : List Range}
    (hwf : FreeListWf fr)
    (hbnd : ∀ x ∈ fr, rng.stop ≠ x.start ∧ rng.start ≠ x.stop)
    (hinv : ∃ x ∈ fr, overlaps rng x) :
    free_list_insert rng fr = none := by
  match fr with
  | [] =>
    obtain ⟨x, hx, -⟩ := hinv
    cases hx
  | c :: t =>
    obtain ⟨x, hx, hov⟩ := hinv
    have hxlo : c.start ≤ x.start := by
      rcases List.mem_cons.mp hx with rfl | hx2
      · exact le_refl _
      · have := FreeListWf.head_lt_all hwf x hx2
        have := hwf.2 c (by simp)
        omega
    have hxhi : x.stop ≤ (List.getLastD t c).stop := le_getLastD_stop hwf x hx
    have h1 : ¬c.start > rng.stop := by
      obtain ⟨hov1, hov2⟩ := hov
      omega
    have h2 : ¬(List.getLastD t c).stop < rng.start := by
      obtain ⟨hov1, hov2⟩ := hov
      omega
    rw [free_list_insert_loop h1 h2]
    exact free_first_overlap_none hwf.1 hwf.2 hbnd ⟨x, hx, hov⟩

/-- With the precondition satisfied and no placement found, `free_range`
returns `Err` with the allocator unchanged. -/
theorem free_range_err_of_insert_none {a : RangeAllocator} {rng : Range}
    (hpre : FreePre a rng) (hfi : free_list_insert rng a.free_ranges = none) :
    a.free_range rng = some (Except.error (), a) := by
  unfold RangeAllocator.free_range
  rw [if_pos ⟨hpre.1, hpre.2.1⟩, if_pos hpre.2.2, hfi]

/-! ### Round trip: allocate then free restores the free list -/

theorem dropLast_cons_append (c : Range) (t l2 : List Range) :
    (c :: t).dropLast ++ List.getLastD t c :: l2 = c :: (t ++ l2) := by
  induction t generalizing c with
  | nil => rfl
  | cons d t2 ih =>
    rw [getLastD_cons', List.dropLast_cons₂, List.cons_append, ih, List.cons_append]

theorem getLastD_append_cons (l1 : List Range) (d : Range) (l2 : List Range) (c : Range) :
    List.getLastD (l1 ++ d :: l2) c = List.getLastD l2 d := by
  induction l1 generalizing c with
  | nil => exact getLastD_cons' c d l2
  | cons e l1' ih => rw [List.cons_append, getLastD_cons', ih]

/-- Scanning past a block of entries that all end strictly before the
freed range (with the next entry starting no later than the freed
range's end) just walks over them. -/
theorem free_scan_mid {rng : Range} :
    ∀ (mid : List Range) (p : Range) (tail : List Range),
      (∀ x ∈ mid, x.start < x.stop ∧ x.stop < rng.start) →
      rng.start < rng.stop →
      (∀ e ∈ tail.head?, e.start ≤ rng.stop) →
      free_scan rng p (mid ++ tail) =
        Option.map (fun l => (p :: mid).dropLast ++ l)
          (free_scan rng (List.getLastD mid p) tail) := by
  intro mid
  induction mid with
  | nil =>
    intro p tail _ _ _
    rcases h : free_scan rng p tail with - | l <;> simp [h]
  | cons c mid2 ih =>
    intro p tail hmid hrng hhead
    obtain ⟨hcne, hclt⟩ := hmid c (by simp)
    have h1 : ¬rng.stop = c.start := by omega
    have h2 : ¬rng.start = c.stop := by omega
    match mid2, tail with
    | [], [] =>
      simp only [List.cons_append, List.nil_append]
      rw [free_scan_last_none h1 h2]
      rfl
    | [], e :: ts =>
      have he : e.start ≤ rng.stop := hhead e rfl
      have h3 : ¬(rng.start > c.stop ∧ rng.stop < e.start) := by omega
      simp only [List.cons_append, List.nil_append]
      rw [free_scan_step h1 h2 h3]
      rcases h : free_scan rng c (e :: ts) with - | l <;> simp [h]
    | c2 :: mid3, tail =>
      obtain ⟨hc2ne, hc2lt⟩ := hmid c2 (by simp)
      have h3 : ¬(rng.start > c.stop ∧ rng.stop < c2.start) := by omega
      simp only [List.cons_append]
      rw [free_scan_step h1 h2 h3]
      have hih := ih c tail (fun x hx => hmid x (by simp [List.mem_cons.mp hx])) hrng hhead
      simp only [List.cons_append, getLastD_cons'] at hih
      rw [hih]
      simp only [getLastD_cons']
      rcases hX : free_scan rng (List.getLastD mid3 c2) tail with - | l
      · simp [hX]
      · simp [hX, List.dropLast_cons₂]

/-- The `free_first` analogue of `free_scan_mid`. -/
theorem free_first_mid {rng : Range} (mid : List Range) (c0 : Range) (tail : List Range)
    (hc0 : c0.start < c0.stop ∧ c0.stop < rng.start)
    (hmid : ∀ x ∈ mid, x.start < x.stop ∧ x.stop < rng.start)
    (hrng : rng.start < rng.stop)
    (hhead : ∀ e ∈ tail.head?, e.start ≤ rng.stop) :
    free_first rng (c0 :: (mid ++ tail)) =
      Option.map (fun l => (c0 :: mid).dropLast ++ l)
        (free_scan rng (List.getLastD mid c0) tail) := by
  have hf1 : ¬rng.stop = c0.start := by omega
  have hf2 : ¬rng.start = c0.stop := by omega
  match mid, tail with
  | [], [] =>
    simp only [List.nil_append]
    rw [free_first_last_none hf1 hf2]
    rfl
  | [], e :: ts =>
    have he : e.start ≤ rng.stop := hhead e rfl
    have h3 : ¬(rng.start > c0.stop ∧ rng.stop < e.start) := by omega
    simp only [List.nil_append]
    rw [free_first_step hf1 hf2 h3]
    rcases h : free_scan rng c0 (e :: ts) with - | l <;> simp [h]
  | c2 :: mid3, tail =>
    obtain ⟨hc2ne, hc2lt⟩ := hmid c2 (by simp)
    have h3 : ¬(rng.start > c0.stop ∧ rng.stop < c2.start) := by omega
    simp only [List.cons_append]
    rw [free_first_step hf1 hf2 h3]
    have := free_scan_mid (c2 :: mid3) c0 tail hmid hrng hhead
    simp only [List.cons_append, getLastD_cons'] at this
    rw [this, getLastD_cons']

/-- Freeing exactly the carved range `[sel.start, sel.start + len)` after
a best-fit allocation from the entry `sel` restores the free list. -/
theorem free_list_insert_roundtrip {pre post : List Range} {sel : Range} {len : Int}
    (hwf : FreeListWf (pre ++ sel :: post))
    (hpos : 0 < len) (hle : len ≤ sel.size) :
    free_list_insert (⟨sel.start, sel.start + len⟩ : Range)
        (pre ++ (if sel.size = len then post
                 else (⟨sel.start + len, sel.stop⟩ : Range) :: post))
      = some (pre ++ sel :: post) := by
  have hpair := hwf.pairwise
  rw [List.pairwise_append] at hpair
  obtain ⟨-, hps, hcross⟩ := hpair
  have hpre_lt : ∀ x ∈ pre, x.stop < sel.start := fun x hx => hcross x hx sel (by simp)
  have hpost_gt : ∀ y ∈ post, sel.stop < y.start := (List.pairwise_cons.mp hps).1
  have hpre_ne : ∀ x ∈ pre, x.start < x.stop := fun x hx => hwf.2 x (by simp [hx])
  have hpost_ne : ∀ y ∈ post, y.start < y.stop := fun y hy => hwf.2 y (by simp [hy])
  have hselne : sel.start < sel.stop := hwf.2 sel (by simp)
  have hsize : Range.size sel = sel.stop - sel.start := rfl
  by_cases hexact : sel.size = len
  · rw [if_pos hexact]
    have hrngsel : (⟨sel.start, sel.start + len⟩ : Range) = sel := by
      rw [show sel.start + len = sel.stop by omega]
    rw [hrngsel]
    rcases pre with - | ⟨c0, pre2⟩
    · rcases post with - | ⟨d, post2⟩
      · rfl
      · have hd : d.start > sel.stop := hpost_gt d (by simp)
        simp only [List.nil_append]
        rw [free_list_insert_prepend hd]
    · have hc0lt : c0.stop < sel.start := hpre_lt c0 (by simp)
      have hc0ne : c0.start < c0.stop := hpre_ne c0 (by simp)
      have h1 : ¬c0.start > sel.stop := by omega
      rcases post with - | ⟨d, post2⟩
      · simp only [List.append_nil]
        have h2 : (List.getLastD pre2 c0).stop < sel.start :=
          hpre_lt _ (getLastD_mem c0 pre2)
        rw [free_list_insert_append h1 h2]
      · have hdgt : sel.stop < d.start := hpost_gt d (by simp)
        have hdne : d.start < d.stop := hpost_ne d (by simp)
        simp only [List.cons_append]
        have h2 : ¬(List.getLastD (pre2 ++ d :: post2) c0).stop < sel.start := by
          rw [getLastD_append_cons]
          have hmem := getLastD_mem d post2
          have hgt : sel.stop < (List.getLastD post2 d).start := hpost_gt _ hmem
          have hne2 : (List.getLastD post2 d).start < (List.getLastD post2 d).stop :=
            hpost_ne _ hmem
          omega
        rw [free_list_insert_loop h1 h2]
        have hf1 : ¬sel.stop = c0.start := by omega
        have hf2 : ¬sel.start = c0.stop := by omega
        rcases List.eq_nil_or_concat pre2 with rfl | ⟨pre3, q, hconcat⟩
        · simp only [List.nil_append]
          rw [free_first_between hf1 hf2 ⟨by omega, by omega⟩]
        · rw [List.concat_eq_append] at hconcat
          subst hconcat
          have hq_lt : q.stop < sel.start := hpre_lt q (by simp)
          have hq_ne : q.start < q.stop := hpre_ne q (by simp)
          have hassoc : (pre3 ++ [q]) ++ d :: post2 = pre3 ++ (q :: d :: post2) := by simp
          rw [hassoc]
          rw [free_first_mid pre3 c0 (q :: d :: post2) ⟨hc0ne, by omega⟩
            (fun x hx => ⟨hpre_ne x (by simp [hx]), by
              have := hpre_lt x (by simp [hx]); omega⟩)
            (by omega) (fun e he => by
              obtain rfl := Option.some.inj he
              omega)]
          have hq1 : ¬sel.stop = q.start := by omega
          have hq2 : ¬sel.start = q.stop := by omega
          rw [free_scan_between hq1 hq2 ⟨by omega, by omega⟩]
          simp only [Option.map_some']
          rw [dropLast_cons_append]
          simp
  · rw [if_neg hexact]
    have hlt : sel.start + len < sel.stop := by
      have : len < sel.size := lt_of_le_of_ne hle (fun he => hexact he.symm)
      omega
    have hpostshr : ∀ x ∈ (⟨sel.start + len, sel.stop⟩ : Range) :: post,
        ¬x.stop < sel.start := by
      intro x hx
      rcases List.mem_cons.mp hx with rfl | hx
      · show ¬sel.stop < sel.start; omega
      · have := hpost_gt x hx
        have := hpost_ne x hx
        omega
    rcases pre with - | ⟨c0, pre2⟩
    · simp only [List.nil_append]
      have h1 : ¬(⟨sel.start + len, sel.stop⟩ : Range).start >
          (⟨sel.start, sel.start + len⟩ : Range).stop := by
        show ¬sel.start + len > sel.start + len; omega
      have h2 : ¬(List.getLastD post ⟨sel.start + len, sel.stop⟩).stop <
          (⟨sel.start, sel.start + len⟩ : Range).start := by
        show ¬(List.getLastD post ⟨sel.start + len, sel.stop⟩).stop < sel.start
        exact hpostshr _ (getLastD_mem _ post)
      rw [free_list_insert_loop h1 h2]
      rw [free_first_left rfl]
    · have hc0lt : c0.stop < sel.start := hpre_lt c0 (by simp)
      have hc0ne : c0.start < c0.stop := hpre_ne c0 (by simp)
      simp only [List.cons_append]
      have h1 : ¬c0.start > (⟨sel.start, sel.start + len⟩ : Range).stop := by
        show ¬c0.start > sel.start + len; omega
      have h2 : ¬(List.getLastD (pre2 ++ (⟨sel.start + len, sel.stop⟩ : Range) :: post)
          c0).stop < (⟨sel.start, sel.start + len⟩ : Range).start := by
        rw [getLastD_append_cons]
        show ¬(List.getLastD post ⟨sel.start + len, sel.stop⟩).stop < sel.start
        exact hpostshr _ (getLastD_mem _ post)
      rw [free_list_insert_loop h1 h2]
      rw [free_first_mid pre2 c0 ((⟨sel.start + len, sel.stop⟩ : Range) :: post)
        ⟨hc0ne, by show c0.stop < sel.start; omega⟩
        (fun x hx => ⟨hpre_ne x (by simp [hx]), by
          have := hpre_lt x (by simp [hx])
          show x.stop < sel.start; omega⟩)
        (by show sel.start < sel.start + len; omega)
        (fun e he => by
          obtain rfl := Option.some.inj he
          show sel.start + len ≤ sel.start + len; omega)]
      have hg : (List.getLastD pre2 c0).stop < sel.start :=
        hpre_lt _ (getLastD_mem c0 pre2)
      rw [free_scan_left rfl (by show ¬(List.getLastD pre2 c0).stop = sel.start; omega)]
      simp only [Option.map_some']
      rw [show (⟨(⟨sel.start, sel.start + len⟩ : Range).start,
          (⟨sel.start + len, sel.stop⟩ : Range).stop⟩ : Range) = sel from rfl]
      rw [dropLast_cons_append]

/-! ### Nonemptiness of entries is preserved unconditionally -/

theorem free_scan_nonempty {rng : Range} :
    ∀ (t : List Range) (p : Range) (l' : List Range),
      (∀ x ∈ p :: t, x.start < x.stop) → rng.start < rng.stop →
      free_scan rng p t = some l' → ∀ x ∈ l', x.start < x.stop := by
  intro t
  induction t with
  | nil => intro p l' _ _ h; cases h
  | cons c t2 ih =>
    intro p l' hne hrng h
    have hpne : p.start < p.stop := hne p (by simp)
    have hcne : c.start < c.stop := hne c (by simp)
    by_cases h1 : rng.stop = c.start
    · by_cases hm : p.stop = rng.start
      · rw [free_scan_left_merge h1 hm] at h
        obtain rfl := Option.some.inj h
        intro x hx
        rcases List.mem_cons.mp hx with rfl | hx
        · show p.start < c.stop; omega
        · exact hne x (by simp [hx])
      · rw [free_scan_left h1 hm] at h
        obtain rfl := Option.some.inj h
        intro x hx
        rcases List.mem_cons.mp hx with rfl | hx
        · exact hpne
        rcases List.mem_cons.mp hx with rfl | hx
        · show rng.start < c.stop; omega
        · exact hne x (by simp [hx])
    · by_cases h2 : rng.start = c.stop
      · match t2 with
        | d :: t3 =>
          have hdne : d.start < d.stop := hne d (by simp)
          by_cases hm : d.start = rng.stop
          · rw [free_scan_right_merge h1 h2 hm] at h
            obtain rfl := Option.some.inj h
            intro x hx
            rcases List.mem_cons.mp hx with rfl | hx
            · exact hpne
            rcases List.mem_cons.mp hx with rfl | hx
            · show c.start < d.stop; omega
            · exact hne x (by simp [hx])
          · rw [free_scan_right h1 h2 hm] at h
            obtain rfl := Option.some.inj h
            intro x hx
            rcases List.mem_cons.mp hx with rfl | hx
            · exact hpne
            rcases List.mem_cons.mp hx with rfl | hx
            · show c.start < rng.stop; omega
            · exact hne x (by simp [hx])
        | [] =>
          rw [free_scan_right_last h1 h2] at h
          obtain rfl := Option.some.inj h
          intro x hx
          rcases List.mem_cons.mp hx with rfl | hx
          · exact hpne
          rcases List.mem_cons.mp hx with rfl | hx
          · show c.start < rng.stop; omega
          · cases hx
      · match t2 with
        | d :: t3 =>
          by_cases h3 : rng.start > c.stop ∧ rng.stop < d.start
          · rw [free_scan_between h1 h2 h3] at h
            obtain rfl := Option.some.inj h
            intro x hx
            rcases List.mem_cons.mp hx with rfl | hx
            · exact hpne
            rcases List.mem_cons.mp hx with rfl | hx
            · exact hcne
            rcases List.mem_cons.mp hx with rfl | hx
            · exact hrng
            · exact hne x (by simp [hx])
          · rw [free_scan_step h1 h2 h3] at h
            rcases hrec : free_scan rng c (d :: t3) with - | l2
            · rw [hrec] at h; cases h
            · rw [hrec] at h
              obtain rfl := Option.some.inj h
              have := ih c l2 (fun x hx => hne x (List.mem_cons_of_mem p hx)) hrng hrec
              intro x hx
              rcases List.mem_cons.mp hx with rfl | hx
              · exact hpne
              · exact this x hx
        | [] =>
          rw [free_scan_last_none h1 h2] at h
          cases h

theorem free_first_nonempty {rng : Range} {t l' : List Range}
    (hne : ∀ x ∈ t, x.start < x.stop) (hrng : rng.start < rng.stop)
    (h : free_first rng t = some l') : ∀ x ∈ l', x.start < x.stop := by
  match t with
  | [] => cases h
  | c :: t2 =>
    have hcne : c.start < c.stop := hne c (by simp)
    by_cases h1 : rng.stop = c.start
    · rw [free_first_left h1] at h
      obtain rfl := Option.some.inj h
      intro x hx
      rcases List.mem_cons.mp hx with rfl | hx
      · show rng.start < c.stop; omega
      · exact hne x (by simp [hx])
    · by_cases h2 : rng.start = c.stop
      · match t2 with
        | d :: t3 =>
          have hdne : d.start < d.stop := hne d (by simp)
          by_cases hm : d.start = rng.stop
          · rw [free_first_right_merge h1 h2 hm] at h
            obtain rfl := Option.some.inj h
            intro x hx
            rcases List.mem_cons.mp hx with rfl | hx
            · show c.start < d.stop; omega
            · exact hne x (by simp [hx])
          · rw [free_first_right h1 h2 hm] at h
            obtain rfl := Option.some.inj h
            intro x hx
            rcases List.mem_cons.mp hx with rfl | hx
            · show c.start < rng.stop; omega
            · exact hne x (by simp [hx])
        | [] =>
          rw [free_first_right_last h1 h2] at h
          obtain rfl := Option.some.inj h
          intro x hx
          rcases List.mem_cons.mp hx with rfl | hx
          · show c.start < rng.stop; omega
          · cases hx
      · match t2 with
        | d :: t3 =>
          by_cases h3 : rng.start > c.stop ∧ rng.stop < d.start
          · rw [free_first_between h1 h2 h3] at h
            obtain rfl := Option.some.inj h
            intro x hx
            rcases List.mem_cons.mp hx with rfl | hx
            · exact hcne
            rcases List.mem_cons.mp hx with rfl | hx
            · exact hrng
            · exact hne x (by simp [hx])
          · rw [free_first_step h1 h2 h3] at h
            exact free_scan_nonempty (d :: t3) c l' (fun x hx => hne x hx) hrng h
        | [] =>
          rw [free_first_last_none h1 h2] at h
          cases h

theorem free_list_insert_nonempty {rng : Range} {t l' : List Range}
    (hne : ∀ x ∈ t, x.start < x.stop) (hrng : rng.start < rng.stop)
    (h : free_list_insert rng t = some l') : ∀ x ∈ l', x.start < x.stop := by
  match t with
  | [] =>
    obtain rfl := Option.some.inj h
    intro x hx
    rcases List.mem_singleton.mp hx with rfl
    exact hrng
  | c :: t2 =>
    by_cases h1 : c.start > rng.stop
    · rw [free_list_insert_prepend h1] at h
      obtain rfl := Option.some.inj h
      intro x hx
      rcases List.mem_cons.mp hx with rfl | hx
      · exact hrng
      · exact hne x hx
    · by_cases h2 : (List.getLastD t2 c).stop < rng.start
      · rw [free_list_insert_append h1 h2] at h
        obtain rfl := Option.some.inj h
        intro x hx
        rcases List.mem_append.mp hx with hx | hx
        · exact hne x hx
        · rcases List.mem_singleton.mp hx with rfl
          exact hrng
      · rw [free_list_insert_loop h1 h2] at h
        exact free_first_nonempty hne hrng h

/-- Every `free_range` call that returns normally (assertions pass)
keeps all free-list entries nonempty. -/
theorem free_range_nonempty {a : RangeAllocator} {rng : Range} {res : Except Unit Unit}
    {a' : RangeAllocator} (hne : ∀ r ∈ a.free_ranges, r.start < r.stop)
    (h : a.free_range rng = some (res, a')) : ∀ r ∈ a'.free_ranges, r.start < r.stop := by
  cases res with
  | error e =>
    obtain ⟨rfl, -, -⟩ := free_range_error_spec h
    exact hne
  | ok u =>
    cases u
    obtain ⟨⟨-, -, hpre⟩, -, hfi⟩ := free_range_ok_spec h
    exact free_list_insert_nonempty hne hpre hfi

/-- Every `allocate_range` call keeps all free-list entries nonempty
(for any requested length). -/
theorem allocate_range_nonempty {a : RangeAllocator} {len : Int} {res : Option Range}
    {a' : RangeAllocator} (hne : ∀ r ∈ a.free_ranges, r.start < r.stop)
    (h : a.allocate_range len = (res, a')) : ∀ r ∈ a'.free_ranges, r.start < r.stop := by
  rcases res with - | r
  · obtain ⟨rfl, -⟩ := allocate_range_none_spec h
    exact hne
  · obtain ⟨pre, sel, post, hfr, hq, -, -, rfl, -, hfr'⟩ := allocate_range_some_spec h
    rw [hfr']
    intro x hx
    by_cases hexact : sel.size = len
    · rw [if_pos hexact] at hx
      rcases List.mem_append.mp hx with hx | hx
      · exact hne x (by rw [hfr]; simp [hx])
      · exact hne x (by rw [hfr]; simp [hx])
    · rw [if_neg hexact] at hx
      have hlt : len < sel.size := lt_of_le_of_ne hq (fun he => hexact he.symm)
      have hsz : Range.size sel = sel.stop - sel.start := rfl
      rcases List.mem_append.mp hx with hx | hx
      · exact hne x (by rw [hfr]; simp [hx])
      rcases List.mem_cons.mp hx with rfl | hx
      · show sel.start + len < sel.stop; omega
      · exact hne x (by rw [hfr]; simp [hx])

/-! ### The claims -/

/-- The three free-list invariants exactly as the specification states
them: pairwise disjointness, sortedness by ascending start, and no two
consecutive entries adjacent. -/
def ClaimInvariants (fr : List Range) : Prop :=
  fr.Pairwise (fun x y => x.stop ≤ y.start ∨ y.stop ≤ x.start) ∧
  fr.Pairwise (fun x y => x.start ≤ y.start) ∧
  List.Chain' (fun x y => x.stop ≠ y.start) fr

instance (fr : List Range) : Decidable (ClaimInvariants fr) :=
  inferInstanceAs (Decidable (_ ∧ _ ∧ _))

theorem claimInvariants_of_wf {fr : List Range} (h : FreeListWf fr) :
    ClaimInvariants fr := by
  have hp := h.pairwise
  refine ⟨hp.imp ?_, ?_, h.1.imp ?_⟩
  · intro a b hab
    rw [ltR_def] at hab
    omega
  · refine hp.imp_of_mem ?_
    intro a b ha hb hab
    have := h.2 a ha
    rw [ltR_def] at hab
    omega
  · intro a b hab
    rw [ltR_def] at hab
    omega

/-- C1.  Best-fit selection: if some free entry is large enough, the
allocator splits the free list as `pre ++ sel :: post` around the first
entry `sel` of minimal qualifying size (every qualifying entry before it
is strictly larger, every qualifying entry after it no smaller — the
perfect-fit short-circuit makes the first exact entry win), returns
`[sel.start, sel.start + length)`, and removes `sel` when consumed
entirely, otherwise advances its start by `length` in place. -/
theorem spec_C1_best_fit_selection {a : RangeAllocator} {len : Int}
    (hwf : Wf a) (hpos : 0 < len)
    (hex : ∃ r ∈ a.free_ranges, len ≤ r.size) :
    ∃ pre sel post,
      a.free_ranges = pre ++ sel :: post ∧
      len ≤ sel.size ∧
      (∀ x ∈ pre, len ≤ x.size → sel.size < x.size) ∧
      (∀ x ∈ post, len ≤ x.size → sel.size ≤ x.size) ∧
      a.allocate_range len =
        (some ⟨sel.start, sel.start + len⟩,
          { a with free_ranges :=
              pre ++ (if sel.size = len then post
                      else (⟨sel.start + len, sel.stop⟩ : Range) :: post) }) := by
  rcases halloc : a.allocate_range len with ⟨or, a2⟩
  rcases or with - | r
  · exfalso
    obtain ⟨-, hall⟩ := allocate_range_none_spec halloc
    obtain ⟨r, hr, hler⟩ := hex
    have := hall r hr
    have hsz : Range.size r = r.stop - r.start := rfl
    omega
  · obtain ⟨pre, sel, post, hfr, hq, hpre, hpost, rfl, hinit, hfr'⟩ :=
      allocate_range_some_spec halloc
    refine ⟨pre, sel, post, hfr, hq, hpre, hpost, ?_⟩
    have ha2 : a2 = { a with free_ranges :=
        pre ++ (if sel.size = len then post
                else (⟨sel.start + len, sel.stop⟩ : Range) :: post) } := by
      cases a2 with
      | mk ir fr =>
        dsimp only at hinit hfr'
        rw [hinit, hfr']
    rw [ha2]

/-- C2 counterexample.  The state `⟨0,10⟩, [0..5, 8..10]` satisfies all
free-list invariants, and the input `3..8` is in bounds and nonempty,
yet `free_range 3..8` succeeds and leaves the free list `[0..5, 3..10]`,
which is not pairwise disjoint. -/
theorem spec_C2_counterexample :
    Wf ⟨⟨0, 10⟩, [⟨0, 5⟩, ⟨8, 10⟩]⟩ ∧
    FreePre ⟨⟨0, 10⟩, [⟨0, 5⟩, ⟨8, 10⟩]⟩ ⟨3, 8⟩ ∧
    ∃ a', (⟨⟨0, 10⟩, [⟨0, 5⟩, ⟨8, 10⟩]⟩ : RangeAllocator).free_range ⟨3, 8⟩ =
        some (Except.ok (), a') ∧
      a'.free_ranges = [⟨0, 5⟩, ⟨3, 10⟩] ∧
      ¬a'.free_ranges.Pairwise (fun x y => x.stop ≤ y.start ∨ y.stop ≤ x.start) := by
  refine ⟨by decide, by decide, _, rfl, rfl, by decide⟩

/-- C2 (amended).  The invariants — pairwise disjoint, sorted by
ascending start, no two consecutive entries adjacent, together with
nonemptiness and in-boundedness (`Wf`) — hold after `new` on a nonempty
range, and are preserved by `allocate_range` with positive length, by
every successful `free_range` whose input is disjoint from every free
entry (as every legal free is), and by `reset` when the initial range is
nonempty. -/
theorem spec_C2_invariants_preserved :
    (∀ rng : Range, rng.start < rng.stop →
      Wf (RangeAllocator.new rng) ∧ ClaimInvariants (RangeAllocator.new rng).free_ranges) ∧
    (∀ (a : RangeAllocator) (len : Int) (res : Option Range) (a' : RangeAllocator),
      Wf a → 0 < len → a.allocate_range len = (res, a') →
      Wf a' ∧ ClaimInvariants a'.free_ranges) ∧
    (∀ (a : RangeAllocator) (rng : Range) (a' : RangeAllocator),
      Wf a → (∀ x ∈ a.free_ranges, rng.stop ≤ x.start ∨ x.stop ≤ rng.start) →
      a.free_range rng = some (Except.ok (), a') →
      Wf a' ∧ ClaimInvariants a'.free_ranges) ∧
    (∀ a : RangeAllocator, a.initial_range.start < a.initial_range.stop →
      Wf a.reset ∧ ClaimInvariants a.reset.free_ranges) := by
  refine ⟨?_, ?_, ?_, ?_⟩
  · intro rng h
    have := new_wf h
    exact ⟨this, claimInvariants_of_wf this.1⟩
  · intro a len res a' hwf hlen h
    have := (allocate_range_wf hwf hlen h).1
    exact ⟨this, claimInvariants_of_wf this.1⟩
  · intro a rng a' hwf hdisj h
    have := (free_range_ok_wf hwf hdisj h).1
    exact ⟨this, claimInvariants_of_wf this.1⟩
  · intro a h
    have := reset_wf h
    exact ⟨this, claimInvariants_of_wf this.1⟩

/-- C3 counterexample.  On the well-formed state `⟨0,10⟩, [0..5, 8..10]`
the in-bounds nonempty input `3..8` overlaps the free entry `0..5`, yet
`free_range` succeeds instead of failing. -/
theorem spec_C3_counterexample :
    Wf ⟨⟨0, 10⟩, [⟨0, 5⟩, ⟨8, 10⟩]⟩ ∧
    FreePre ⟨⟨0, 10⟩, [⟨0, 5⟩, ⟨8, 10⟩]⟩ ⟨3, 8⟩ ∧
    (∃ x ∈ (⟨⟨0, 10⟩, [⟨0, 5⟩, ⟨8, 10⟩]⟩ : RangeAllocator).free_ranges,
      overlaps ⟨3, 8⟩ x) ∧
    ∃ a', (⟨⟨0, 10⟩, [⟨0, 5⟩, ⟨8, 10⟩]⟩ : RangeAllocator).free_range ⟨3, 8⟩ =
        some (Except.ok (), a') := by
  exact ⟨by decide, by decide, by decide, _, rfl⟩

/-- C3 (amended).  If the input range (in bounds, nonempty) overlaps at
least one free entry and additionally touches no entry boundary (its end
is no entry's start and its start is no entry's end — otherwise an
adjacency rule may fire and corrupt the list), then `free_range` returns
the failure result and leaves the allocator unchanged. -/
theorem spec_C3_overlap_detection {a : RangeAllocator} {rng : Range}
    (hwf : Wf a) (hpre : FreePre a rng)
    (hbnd : ∀ x ∈ a.free_ranges, rng.stop ≠ x.start ∧ rng.start ≠ x.stop)
    (hov : ∃ x ∈ a.free_ranges, overlaps rng x) :
    a.free_range rng = some (Except.error (), a) :=
  free_range_err_of_insert_none hpre
    (free_list_insert_overlap_none hwf.1 hbnd hov)

/-- C4.  Failure atomicity: whenever `free_range` returns the `Err`
result, the allocator (free list and initial range) is exactly as
before the call. -/
theorem spec_C4_failure_atomicity {a : RangeAllocator} {rng : Range} {e : Unit}
    {a' : RangeAllocator} (hpre : FreePre a rng)
    (h : a.free_range rng = some (Except.error e, a')) : a' = a :=
  (free_range_error_spec h).1

/-- C5.  Conservation: along every history of allocations and frees in
which each freed range was previously returned by a successful
allocation and not yet freed, the total free size plus the total
outstanding size equals the size of the initial range. -/
theorem spec_C5_conservation {init : Range} {a : RangeAllocator} {out : List Range}
    (h : Reach init a out) :
    sumSizes a.free_ranges + sumSizes out = init.stop - init.start :=
  (reach_conservation h).2

/-- C6.  Round trip: allocating any positive length from a well-formed
state and immediately freeing the returned range succeeds and restores
the allocator (free list and initial range) exactly. -/
theorem spec_C6_roundtrip {a : RangeAllocator} {len : Int} {r : Range}
    {a' : RangeAllocator} (hwf : Wf a) (hpos : 0 < len)
    (h : a.allocate_range len = (some r, a')) :
    a'.free_range r = some (Except.ok (), a) := by
  obtain ⟨pre, sel, post, hfr, hq, -, -, rfl, hinit, hfr'⟩ := allocate_range_some_spec h
  have hsel_bd : a.initial_range.start ≤ sel.start ∧ sel.stop ≤ a.initial_range.stop :=
    hwf.2 sel (by rw [hfr]; simp)
  have hsz : Range.size sel = sel.stop - sel.start := rfl
  have hcond1 : a'.initial_range.start ≤ (⟨sel.start, sel.start + len⟩ : Range).start ∧
      (⟨sel.start, sel.start + len⟩ : Range).stop ≤ a'.initial_range.stop := by
    rw [hinit]
    exact ⟨hsel_bd.1, by show sel.start + len ≤ _; omega⟩
  unfold RangeAllocator.free_range
  rw [if_pos hcond1, if_pos (show (⟨sel.start, sel.start + len⟩ : Range).start <
    (⟨sel.start, sel.start + len⟩ : Range).stop from by
      show sel.start < sel.start + len; omega)]
  rw [hfr', free_list_insert_roundtrip (hfr ▸ hwf.1) hpos hq]
  show some (Except.ok (), ({ a' with free_ranges := pre ++ sel :: post } : RangeAllocator))
    = some (Except.ok (), a)
  have : ({ a' with free_ranges := pre ++ sel :: post } : RangeAllocator) = a := by
    rw [← hfr]
    cases a' with
    | mk ir fr =>
      dsimp only at hinit
      rw [hinit]
  rw [this]

/-- C7.  Allocation failure: `allocate_range` returns no range exactly
when no free entry is at least as large as the request; in particular,
allocating the whole initial range `[0, N)` in one call succeeds and
leaves every later positive request unsatisfiable. -/
theorem spec_C7_allocation_failure :
    ∀ (a : RangeAllocator) (len : Int), 0 < len →
      (((a.allocate_range len).1 = none) ↔ ∀ r ∈ a.free_ranges, r.size < len) ∧
      (∀ N : Int, 0 < N →
        ((RangeAllocator.new ⟨0, N⟩).allocate_range N).1 = some ⟨0, N⟩ ∧
        (((RangeAllocator.new ⟨0, N⟩).allocate_range N).2.allocate_range len).1 = none) := by
  intro a len hlen
  constructor
  · rcases halloc : a.allocate_range len with ⟨or, a2⟩
    rcases or with - | r
    · constructor
      · intro _
        exact fun r hr => (allocate_range_none_spec halloc).2 r hr
      · intro _
        rfl
    · constructor
      · intro h
        cases h
      · intro hall
        exfalso
        obtain ⟨pre, sel, post, hfr, hq, -, -, -, -, -⟩ := allocate_range_some_spec halloc
        have := hall sel (by rw [hfr]; simp)
        have hsz : Range.size sel = sel.stop - sel.start := rfl
        omega
  · intro N hN
    have hscan : bestFitLoop N [(⟨0, N⟩ : Range)] 0 none = some (0, ⟨0, N⟩) :=
      bestFitLoop_cons_exact (by show ¬(N - 0 < N); omega) (by show N - 0 = N; omega)
    have halloc : (RangeAllocator.new ⟨0, N⟩).allocate_range N =
        (some ⟨0, N⟩, ⟨⟨0, N⟩, []⟩) := by
      unfold RangeAllocator.allocate_range RangeAllocator.new
      dsimp only
      rw [hscan]
      dsimp only
      rw [if_pos (show (⟨0, N⟩ : Range).stop - (⟨0, N⟩ : Range).start = N from by
        show N - 0 = N; omega)]
      rw [show (0 : Int) + N = N from zero_add N]
      rfl
    rw [halloc]
    exact ⟨rfl, rfl⟩

/-- C8 counterexample.  Construction from the permitted degenerate empty
range puts the empty range itself on the free list, so not every entry
satisfies `start < stop` after construction. -/
theorem spec_C8_counterexample :
    ∃ r ∈ (RangeAllocator.new ⟨0, 0⟩).free_ranges, ¬r.start < r.stop := by
  exact ⟨⟨0, 0⟩, by decide, by decide⟩

/-- C8 (amended).  Entries are nonempty after `new` on a nonempty input
range (the degenerate empty input puts an empty entry on the list), and
nonemptiness of all entries is preserved by every `allocate_range`
(fully consumed entries are removed, not kept empty), by every
`free_range` that returns normally, and by `reset` when the initial
range is nonempty. -/
theorem spec_C8_nonempty_entries :
    (∀ rng : Range, rng.start < rng.stop →
      ∀ r ∈ (RangeAllocator.new rng).free_ranges, r.start < r.stop) ∧
    (∀ (a : RangeAllocator) (len : Int) (res : Option Range) (a' : RangeAllocator),
      (∀ r ∈ a.free_ranges, r.start < r.stop) → a.allocate_range len = (res, a') →
      ∀ r ∈ a'.free_ranges, r.start < r.stop) ∧
    (∀ (a : RangeAllocator) (rng : Range) (res : Except Unit Unit) (a' : RangeAllocator),
      (∀ r ∈ a.free_ranges, r.start < r.stop) → a.free_range rng = some (res, a') →
      ∀ r ∈ a'.free_ranges, r.start < r.stop) ∧
    (∀ a : RangeAllocator, a.initial_range.start < a.initial_range.stop →
      ∀ r ∈ a.reset.free_ranges, r.start < r.stop) := by
  refine ⟨?_, ?_, ?_, ?_⟩
  · intro rng h r hr
    rcases List.mem_singleton.mp hr with rfl
    exact h
  · intro a len res a' hne h
    exact allocate_range_nonempty hne h
  · intro a rng res a' hne h
    exact free_range_nonempty hne h
  · intro a h r hr
    rcases List.mem_singleton.mp hr with rfl
    exact h

/-- C9.  The two assertions of `free_range` fire (modelled as `none`)
exactly when the precondition `initial.start ≤ rng.start ∧ rng.stop ≤
initial.stop ∧ rng.start < rng.stop` fails; when it holds, the call
returns a normal `Ok`/`Err` result. -/
theorem spec_C9_assertion_checks :
    ∀ (a : RangeAllocator) (rng : Range),
      (a.free_range rng = none ↔
        ¬(a.initial_range.start ≤ rng.start ∧ rng.stop ≤ a.initial_range.stop ∧
          rng.start < rng.stop)) ∧
      (a.initial_range.start ≤ rng.start ∧ rng.stop ≤ a.initial_range.stop ∧
          rng.start < rng.stop →
        ∃ res a', a.free_range rng = some (res, a')) := by
  intro a rng
  refine ⟨free_range_none_iff a rng, ?_⟩
  intro hpre
  rcases h : a.free_range rng with - | ⟨res, a'⟩
  · exact absurd hpre ((free_range_none_iff a rng).mp h)
  · exact ⟨res, a', rfl⟩

/-- C10.  A failed allocation (result `none`) leaves the allocator —
free list and initial range — exactly unchanged. -/
theorem spec_C10_alloc_none_unchanged {a : RangeAllocator} {len : Int}
    {a' : RangeAllocator} (h : a.allocate_range len = (none, a')) : a' = a :=
  (allocate_range_none_spec h).1

/-! ### Witnesses: the claim theorems applied at concrete inputs -/

/-- Witness for C1 at the spec's own example state `[3..6, 9..10]`,
request 1 (the perfect fit `9..10` is selected). -/
theorem spec_C1_best_fit_selection_witness :
    ∃ pre sel post,
      (⟨⟨0, 10⟩, [⟨3, 6⟩, ⟨9, 10⟩]⟩ : RangeAllocator).free_ranges = pre ++ sel :: post ∧
      (1 : Int) ≤ sel.size ∧
      (∀ x ∈ pre, (1 : Int) ≤ x.size → sel.size < x.size) ∧
      (∀ x ∈ post, (1 : Int) ≤ x.size → sel.size ≤ x.size) ∧
      (⟨⟨0, 10⟩, [⟨3, 6⟩, ⟨9, 10⟩]⟩ : RangeAllocator).allocate_range 1 =
        (some ⟨sel.start, sel.start + 1⟩,
          { (⟨⟨0, 10⟩, [⟨3, 6⟩, ⟨9, 10⟩]⟩ : RangeAllocator) with free_ranges :=
              pre ++ (if sel.size = 1 then post
                      else (⟨sel.start + 1, sel.stop⟩ : Range) :: post) }) :=
  spec_C1_best_fit_selection (by decide) (by decide) (by decide)

/-- Witness for C2 (amended): each operation applied at a concrete
well-formed state. -/
theorem spec_C2_invariants_preserved_witness :
    (Wf (RangeAllocator.new ⟨0, 10⟩) ∧
      ClaimInvariants (RangeAllocator.new ⟨0, 10⟩).free_ranges) ∧
    (Wf ⟨⟨0, 10⟩, [⟨4, 10⟩]⟩ ∧
      ClaimInvariants (⟨⟨0, 10⟩, [⟨4, 10⟩]⟩ : RangeAllocator).free_ranges) ∧
    (Wf ⟨⟨0, 10⟩, [⟨0, 10⟩]⟩ ∧
      ClaimInvariants (⟨⟨0, 10⟩, [⟨0, 10⟩]⟩ : RangeAllocator).free_ranges) ∧
    (Wf (⟨⟨0, 10⟩, [⟨4, 10⟩]⟩ : RangeAllocator).reset ∧
      ClaimInvariants (⟨⟨0, 10⟩, [⟨4, 10⟩]⟩ : RangeAllocator).reset.free_ranges) :=
  ⟨spec_C2_invariants_preserved.1 ⟨0, 10⟩ (by decide),
   spec_C2_invariants_preserved.2.1 ⟨⟨0, 10⟩, [⟨0, 10⟩]⟩ 4 (some ⟨0, 4⟩)
     ⟨⟨0, 10⟩, [⟨4, 10⟩]⟩ (by decide) (by decide) rfl,
   spec_C2_invariants_preserved.2.2.1 ⟨⟨0, 10⟩, [⟨4, 10⟩]⟩ ⟨0, 4⟩
     ⟨⟨0, 10⟩, [⟨0, 10⟩]⟩ (by decide) (by decide) rfl,
   spec_C2_invariants_preserved.2.2.2 ⟨⟨0, 10⟩, [⟨4, 10⟩]⟩ (by decide)⟩

/-- Witness for C3 (amended): freeing `3..5` inside the free entry
`2..6` (a double free touching no boundary) fails and leaves the
allocator unchanged. -/
theorem spec_C3_overlap_detection_witness :
    (⟨⟨0, 10⟩, [⟨2, 6⟩]⟩ : RangeAllocator).free_range ⟨3, 5⟩ =
      some (Except.error (), ⟨⟨0, 10⟩, [⟨2, 6⟩]⟩) :=
  spec_C3_overlap_detection (by decide) (by decide) (by decide) (by decide)

/-- Witness for C4 at a concrete double free. -/
theorem spec_C4_failure_atomicity_witness :
    (⟨⟨0, 10⟩, [⟨0, 10⟩]⟩ : RangeAllocator) = ⟨⟨0, 10⟩, [⟨0, 10⟩]⟩ :=
  spec_C4_failure_atomicity
    (show FreePre ⟨⟨0, 10⟩, [⟨0, 10⟩]⟩ ⟨3, 5⟩ by decide)
    (show (⟨⟨0, 10⟩, [⟨0, 10⟩]⟩ : RangeAllocator).free_range ⟨3, 5⟩ =
      some (Except.error (), ⟨⟨0, 10⟩, [⟨0, 10⟩]⟩) from rfl)

/-- Witness for C5 along the concrete history
`new 0..10; allocate 4 = 0..4; free 0..4`. -/
theorem spec_C5_conservation_witness :
    sumSizes [(⟨0, 10⟩ : Range)] + sumSizes ([(⟨0, 4⟩ : Range)].erase ⟨0, 4⟩) =
      10 - 0 :=
  spec_C5_conservation
    (Reach.free_ok
      (Reach.alloc_ok Reach.base
        (show (RangeAllocator.new ⟨0, 10⟩).allocate_range 4 =
          (some ⟨0, 4⟩, ⟨⟨0, 10⟩, [⟨4, 10⟩]⟩) from rfl))
      (by decide)
      (show (⟨⟨0, 10⟩, [⟨4, 10⟩]⟩ : RangeAllocator).free_range ⟨0, 4⟩ =
        some (Except.ok (), ⟨⟨0, 10⟩, [⟨0, 10⟩]⟩) from rfl))

/-- Witness for C6: allocate 2 from `[3..6, 9..10]` (carving `3..5`),
then free `3..5`; the original allocator is restored. -/
theorem spec_C6_roundtrip_witness :
    (⟨⟨0, 10⟩, [⟨5, 6⟩, ⟨9, 10⟩]⟩ : RangeAllocator).free_range ⟨3, 5⟩ =
      some (Except.ok (), ⟨⟨0, 10⟩, [⟨3, 6⟩, ⟨9, 10⟩]⟩) :=
  spec_C6_roundtrip (by decide) (by decide)
    (show (⟨⟨0, 10⟩, [⟨3, 6⟩, ⟨9, 10⟩]⟩ : RangeAllocator).allocate_range 2 =
      (some ⟨3, 5⟩, ⟨⟨0, 10⟩, [⟨5, 6⟩, ⟨9, 10⟩]⟩) from rfl)

/-- Witness for C7 at a concrete state and at `N = 7`. -/
theorem spec_C7_allocation_failure_witness :
    (((⟨⟨0, 10⟩, [⟨2, 4⟩]⟩ : RangeAllocator).allocate_range 5).1 = none ↔
      ∀ r ∈ (⟨⟨0, 10⟩, [⟨2, 4⟩]⟩ : RangeAllocator).free_ranges, r.size < 5) ∧
    ((RangeAllocator.new ⟨0, 7⟩).allocate_range 7).1 = some ⟨0, 7⟩ ∧
    (((RangeAllocator.new ⟨0, 7⟩).allocate_range 7).2.allocate_range 5).1 = none :=
  ⟨(spec_C7_allocation_failure ⟨⟨0, 10⟩, [⟨2, 4⟩]⟩ 5 (by decide)).1,
   (spec_C7_allocation_failure ⟨⟨0, 10⟩, [⟨2, 4⟩]⟩ 5 (by decide)).2 7 (by decide)⟩

/-- Witness for C8 (amended): each operation at a concrete state. -/
theorem spec_C8_nonempty_entries_witness :
    (∀ r ∈ (RangeAllocator.new ⟨0, 10⟩).free_ranges, r.start < r.stop) ∧
    (∀ r ∈ (⟨⟨0, 10⟩, [⟨4, 10⟩]⟩ : RangeAllocator).free_ranges, r.start < r.stop) ∧
    (∀ r ∈ (⟨⟨0, 10⟩, [⟨0, 10⟩]⟩ : RangeAllocator).free_ranges, r.start < r.stop) ∧
    (∀ r ∈ (⟨⟨0, 10⟩, [⟨4, 10⟩]⟩ : RangeAllocator).reset.free_ranges, r.start < r.stop) :=
  ⟨spec_C8_nonempty_entries.1 ⟨0, 10⟩ (by decide),
   spec_C8_nonempty_entries.2.1 ⟨⟨0, 10⟩, [⟨0, 10⟩]⟩ 4 (some ⟨0, 4⟩)
     ⟨⟨0, 10⟩, [⟨4, 10⟩]⟩ (by decide) rfl,
   spec_C8_nonempty_entries.2.2.1 ⟨⟨0, 10⟩, [⟨4, 10⟩]⟩ ⟨0, 4⟩ (Except.ok ())
     ⟨⟨0, 10⟩, [⟨0, 10⟩]⟩ (by decide) rfl,
   spec_C8_nonempty_entries.2.2.2 ⟨⟨0, 10⟩, [⟨4, 10⟩]⟩ (by decide)⟩

/-- Witness for C9: an out-of-bounds input panics, an in-bounds nonempty
input returns a normal result. -/
theorem spec_C9_assertion_checks_witness :
    ((⟨⟨0, 10⟩, [⟨0, 10⟩]⟩ : RangeAllocator).free_range ⟨3, 11⟩ = none ↔
      ¬((0 : Int) ≤ 3 ∧ (11 : Int) ≤ 10 ∧ (3 : Int) < 11)) ∧
    ∃ res a', (⟨⟨0, 10⟩, [⟨0, 10⟩]⟩ : RangeAllocator).free_range ⟨3, 5⟩ =
      some (res, a') :=
  ⟨(spec_C9_assertion_checks ⟨⟨0, 10⟩, [⟨0, 10⟩]⟩ ⟨3, 11⟩).1,
   (spec_C9_assertion_checks ⟨⟨0, 10⟩, [⟨0, 10⟩]⟩ ⟨3, 5⟩).2 (by decide)⟩

/-- Witness for C10: a failed allocation from a concrete state. -/
theorem spec_C10_alloc_none_unchanged_witness :
    (⟨⟨0, 10⟩, []⟩ : RangeAllocator) = ⟨⟨0, 10⟩, []⟩ :=
  spec_C10_alloc_none_unchanged
    (show (⟨⟨0, 10⟩, []⟩ : RangeAllocator).allocate_range 5 = (none, ⟨⟨0, 10⟩, []⟩)
      from rfl)
